import Mathlib

/-!
Verification of the plan builder / executor of the `homer` dotfile linker
(`src/main.rs`), against its specification.

The filesystem is modelled shallowly: a finite list of (absolute path,
entry) pairs plus a set of unreadable directories.  Paths are lists of
component names.  Symlink resolution (`fs::canonicalize`, `Path::exists`,
`Path::is_dir`, `fs::read_link`) is modelled by `resolve`, which follows
symlinks with an explicit fuel bound.  `Plan.new`, `Plan.is_empty` and
`Plan.execute` are direct translations of `Plan::new`, `Plan::is_empty`
and `Plan::execute` from `src/main.rs`.
-/

namespace Homer

/-- An absolute filesystem path, as a list of component names. -/
abbrev Path := List String

/-- The stored target of a symbolic link: either absolute, or relative to
the link's parent directory (mirrors the `PathBuf` returned by
`fs::read_link`). -/
structure STarget where
  abs : Bool
  comps : Path
deriving DecidableEq, Repr

/-- What occupies a path: a regular file (with a content id used to track
identity), a directory, or a symbolic link. -/
inductive Entry where
  | file (id : Nat)
  | dir
  | symlink (t : STarget)
deriving DecidableEq, Repr

/-- A filesystem state: raw entries keyed by absolute path (the root `[]`
is an implicit directory), plus the directories whose contents cannot be
read (`fs::read_dir` failure). -/
structure FS where
  entries : List (Path × Entry)
  unreadable : List Path
deriving DecidableEq, Repr

/-- Raw lookup of a path (an `lstat` that resolves no component at all). -/
def lookupRaw (fs : FS) (p : Path) : Option Entry :=
  (fs.entries.find? (fun e => decide (e.1 = p))).map (fun e => e.2)

/-- Resolve the components `rest` starting from the already-resolved
directory `cur`, following symlinks, with fuel `f`.  A `file` may only be
the last component.  Mirrors kernel path resolution as used by
`fs::canonicalize` / `stat`. -/
def resolveGo (fs : FS) : Nat → Path → List String → Option Path
  | _, cur, [] => some cur
  | 0, _, _ :: _ => none
  | Nat.succ f, cur, c :: rest =>
    match lookupRaw fs (cur ++ [c]) with
    | none => none
    | some Entry.dir => resolveGo fs f (cur ++ [c]) rest
    | some (Entry.file _) => if rest.isEmpty then some (cur ++ [c]) else none
    | some (Entry.symlink t) =>
      match resolveGo fs f [] (if t.abs then t.comps else cur ++ t.comps) with
      | none => none
      | some r => resolveGo fs f r rest

/-- Full path resolution from the root (`fs::canonicalize`). -/
def resolve (fs : FS) (f : Nat) (p : Path) : Option Path := resolveGo fs f [] p

/-- Model of `stat`: resolve every component including the last; the result is the
kind of the final entry.  `none` when resolution fails (missing entry,
broken link, loop). -/
def statE (fs : FS) (f : Nat) (p : Path) : Option Entry :=
  match resolve fs f p with
  | none => none
  | some r => if r.isEmpty then some Entry.dir else lookupRaw fs r

/-- Model of `lstat`: resolve all components but the last, then look at the last
raw (symlinks at the final component are not followed). -/
def lstatE (fs : FS) (f : Nat) (p : Path) : Option Entry :=
  match p.getLast? with
  | none => some Entry.dir
  | some c =>
    match resolve fs f p.dropLast with
    | none => none
    | some r => lookupRaw fs (r ++ [c])

/-- Model of `std::fs::read_link`: succeeds exactly when the path holds a symlink. -/
def read_link (fs : FS) (f : Nat) (p : Path) : Option STarget :=
  match lstatE fs f p with
  | some (Entry.symlink t) => some t
  | _ => none

/-- Model of `Path::exists`: follows symlinks, false for a broken link. -/
def pathExists (fs : FS) (f : Nat) (p : Path) : Bool := (statE fs f p).isSome

/-- Model of `Path::is_dir`: follows symlinks. -/
def isDir (fs : FS) (f : Nat) (p : Path) : Bool :=
  decide (statE fs f p = some Entry.dir)

/-- The direct child names of directory `r`, in storage order (the order
`fs::read_dir` yields entries in; the code applies no sorting). -/
def childNames (fs : FS) (r : Path) : List String :=
  fs.entries.filterMap (fun e =>
    if e.1.length = r.length + 1 ∧ r <+: e.1 then (e.1.drop r.length).head? else none)

/-- Model of `std::fs::read_dir`: fails on an unreadable directory. -/
def read_dir (fs : FS) (f : Nat) (p : Path) : Option (List String) :=
  match resolve fs f p with
  | none => none
  | some r => if r ∈ fs.unreadable then none else some (childNames fs r)

/-- Model of `dest.exists() || std::fs::read_link(dest).is_ok()` (src/main.rs line
205): something occupies `dest` — a file, a directory, or a symlink
including a broken one. -/
def occB (fs : FS) (rf : Nat) (d : Path) : Bool :=
  pathExists fs rf d || (read_link fs rf d).isSome

/-- The `canonicalized_dest` of `Plan::new` (src/main.rs lines 240-250):
read the symlink at `dest`; an absolute target is canonicalized as is, a
relative target is pushed onto `dest`'s parent first; any failure is
`none`. -/
def canDest (fs : FS) (rf : Nat) (dest : Path) : Option Path :=
  match read_link fs rf dest with
  | some t => resolve fs rf (if t.abs then t.comps else dest.dropLast ++ t.comps)
  | none => none

/-- Build-time errors of `Plan::new` (`anyhow` errors in the source):
missing source, unreadable directory, canonicalize failure, plus a fuel
bound for the shallow recursion. -/
inductive BuildErr where
  | notFound (p : Path)
  | io (p : Path)
  | canon (p : Path)
  | fuel (p : Path)
deriving DecidableEq, Repr

/-- The action plan of `src/main.rs`: `Plan::Noop` carries children,
`Plan::Link` carries only the two paths and the `replace`/`backup`
flags — it has no children field. -/
inductive Plan where
  | noop (path dest : Path) (children : List Plan)
  | link (path dest : Path) (replace backup : Bool)
deriving Repr

def Plan.pathOf : Plan → Path
  | .noop p _ _ => p
  | .link p _ _ _ => p

def Plan.destOf : Plan → Path
  | .noop _ d _ => d
  | .link _ d _ _ => d

def Plan.childrenOf : Plan → List Plan
  | .noop _ _ ch => ch
  | .link _ _ _ _ => []

/-- The child-building loop of `Plan::new`: build a sub-plan per entry
name, aborting at the first error (the `?` inside the `for` loop). -/
def seqBuild (g : String → Except BuildErr Plan) (ns : List String) :
    Except BuildErr (List Plan) :=
  ns.foldr (fun n acc => (g n).bind (fun c => acc.map (fun cs => c :: cs))) (Except.ok [])

/-- Translation of `Plan::new` (src/main.rs lines 200-270), translated clause by clause:
source-existence check, `dest_exists_or_is_link`, the directory branch
(recurse into children, then `Noop` if `dest` is a directory else a
childless `Link`), and the file branch (resolve a pre-existing symlink at
`dest` — a relative target against the link's own parent — compare with
the canonicalized source, `Noop` on a match, else `Link`). -/
def Plan.new (fs : FS) (rf : Nat) (backup : Bool) : Nat → Path → Path → Except BuildErr Plan
  | 0, path, _ => Except.error (BuildErr.fuel path)
  | Nat.succ fu, path, dest =>
    if pathExists fs rf path = false then Except.error (BuildErr.notFound path)
    else
      if isDir fs rf path then
        match read_dir fs rf path with
        | none => Except.error (BuildErr.io path)
        | some names =>
          match seqBuild (fun n => Plan.new fs rf backup fu (path ++ [n]) (dest ++ [n])) names with
          | Except.error e => Except.error e
          | Except.ok _children =>
            if isDir fs rf dest then Except.ok (Plan.noop path dest _children)
            else Except.ok (Plan.link path dest (occB fs rf dest) backup)
      else
        match resolve fs rf path with
        | none => Except.error (BuildErr.canon path)
        | some canonicalized_path =>
          if canDest fs rf dest = some canonicalized_path then
            Except.ok (Plan.noop path dest [])
          else Except.ok (Plan.link path dest (occB fs rf dest) backup)

/-- Translation of `Plan::is_empty`: a `Noop` all of whose children are empty. -/
def Plan.is_empty : Plan → Bool
  | Plan.link _ _ _ _ => false
  | Plan.noop _ _ [] => true
  | Plan.noop p d (c :: cs) => c.is_empty && (Plan.noop p d cs).is_empty

/-- Execution-time errors. -/
inductive ExecErr where
  | io (p : Path)
  | occupied (p : Path)
  | fuel
deriving DecidableEq, Repr

/-- Remove the single entry at key `p`. -/
def eraseKey (fs : FS) (p : Path) : FS :=
  { fs with entries := fs.entries.filter (fun e => decide (e.1 ≠ p)) }

/-- Remove the whole subtree rooted at `p` (including `p`). -/
def eraseTree (fs : FS) (p : Path) : FS :=
  { fs with entries := fs.entries.filter (fun e => decide (¬ p <+: e.1)) }

/-- Append an entry at key `p`. -/
def insertEntry (fs : FS) (p : Path) (ent : Entry) : FS :=
  { fs with entries := fs.entries ++ [(p, ent)] }

/-- Model of `std::os::unix::fs::symlink(src, dst)`: fails when something already
occupies `dst`; stores the given source path as an absolute target. -/
def symlinkF (fs : FS) (f : Nat) (src dst : Path) : Except ExecErr FS :=
  match dst.getLast? with
  | none => Except.error (ExecErr.io dst)
  | some c =>
    match resolve fs f dst.dropLast with
    | none => Except.error (ExecErr.io dst)
    | some r =>
      if (lookupRaw fs (r ++ [c])).isSome then Except.error (ExecErr.occupied dst)
      else Except.ok (insertEntry fs (r ++ [c]) (Entry.symlink ⟨true, src⟩))

/-- Model of `std::fs::remove_file`: unlinks a file or a symlink, fails on a
directory. -/
def removeFileF (fs : FS) (f : Nat) (p : Path) : Except ExecErr FS :=
  match p.getLast? with
  | none => Except.error (ExecErr.io p)
  | some c =>
    match resolve fs f p.dropLast with
    | none => Except.error (ExecErr.io p)
    | some r =>
      match lookupRaw fs (r ++ [c]) with
      | none => Except.error (ExecErr.io p)
      | some Entry.dir => Except.error (ExecErr.io p)
      | some _ => Except.ok (eraseKey fs (r ++ [c]))

/-- Model of `std::fs::remove_dir_all` (post-1.62 std): the path is `lstat`ed
first — a symlink is unlinked without recursion, a real directory is
removed with its whole subtree, a regular file is an error. -/
def removeDirAllF (fs : FS) (f : Nat) (p : Path) : Except ExecErr FS :=
  match p.getLast? with
  | none => Except.error (ExecErr.io p)
  | some c =>
    match resolve fs f p.dropLast with
    | none => Except.error (ExecErr.io p)
    | some r =>
      match lookupRaw fs (r ++ [c]) with
      | none => Except.error (ExecErr.io p)
      | some (Entry.symlink _) => Except.ok (eraseKey fs (r ++ [c]))
      | some Entry.dir => Except.ok (eraseTree fs (r ++ [c]))
      | some (Entry.file _) => Except.error (ExecErr.io p)

/-- The characters before the last `.` of a name, `none` when the name
has no dot. -/
def dropFromLastDot : List Char → Option (List Char)
  | [] => none
  | c :: cs =>
    match dropFromLastDot cs with
    | some r => some (c :: r)
    | none => if c = '.' then some [] else none

/-- Rust `Path::with_extension("bkp")` on one file name: a leading dot
with no later dot belongs to the stem (`.vimrc` becomes `.vimrc.bkp`),
otherwise the stem is everything before the last dot (`a.txt` becomes
`a.bkp`). -/
def withExtBkp (s : String) : String :=
  match s.toList with
  | [] => String.mk ('.' :: 'b' :: 'k' :: 'p' :: [])
  | c :: cs =>
    let stem := match dropFromLastDot cs with
      | some r => c :: r
      | none => c :: cs
    String.mk (stem ++ '.' :: 'b' :: 'k' :: 'p' :: [])

/-- Rust `dest.with_extension("bkp")` on a whole path. -/
def withExtBkpP (p : Path) : Path :=
  match p.getLast? with
  | none => p
  | some c => p.dropLast ++ [withExtBkp c]

/-- The entry list after a rename of the subtree at `ka` onto `kb`: the
old occupant of `kb` (with its subtree) disappears, every key under `ka`
is re-rooted at `kb`, everything else is untouched. -/
def mvList (ka kb : Path) (l : List (Path × Entry)) : List (Path × Entry) :=
  (l.filter (fun e => decide (¬ kb <+: e.1))).map
    (fun e => if ka <+: e.1 then (kb ++ e.1.drop ka.length, e.2) else e)

/-- Model of `std::fs::rename(a, b)` following rename(2): moves the entry (with
its subtree) from `a` to `b`.  An occupant of `b` is replaced silently
when neither side is a directory; a directory at `a` may only go onto a
free name or an empty directory (ENOTDIR/ENOTEMPTY otherwise), and a
directory at `b` blocks a non-directory source (EISDIR).  Renaming a
path onto itself succeeds and does nothing; a target inside the moved
subtree is an error. -/
def renameF (fs : FS) (f : Nat) (a b : Path) : Except ExecErr FS :=
  match a.getLast?, b.getLast? with
  | some ca, some cb =>
    match resolve fs f a.dropLast, resolve fs f b.dropLast with
    | some ra, some rb =>
      let ka := ra ++ [ca]
      let kb := rb ++ [cb]
      match lookupRaw fs ka with
      | none => Except.error (ExecErr.io a)
      | some va =>
        if ka = kb then Except.ok fs
        else if ka <+: kb then Except.error (ExecErr.io b)
        else
          match lookupRaw fs kb, va with
          | some Entry.dir, Entry.dir =>
            if fs.entries.all (fun e => decide (¬ kb <+: e.1) || decide (e.1 = kb)) then
              Except.ok { fs with entries := mvList ka kb fs.entries }
            else Except.error (ExecErr.io b)
          | some Entry.dir, _ => Except.error (ExecErr.io b)
          | some _, Entry.dir => Except.error (ExecErr.io b)
          | _, _ => Except.ok { fs with entries := mvList ka kb fs.entries }
    | _, _ => Except.error (ExecErr.io a)
  | _, _ => Except.error (ExecErr.io a)

/-- Model of `children.iter().try_for_each(Plan::execute)`: thread the filesystem
through the children, aborting at the first error. -/
def seqExec (h : FS → Plan → Except ExecErr FS) (cs : List Plan) (fs : FS) :
    Except ExecErr FS :=
  cs.foldl (fun acc c => acc.bind (fun s => h s c)) (Except.ok fs)

/-- Translation of `Plan::execute` (src/main.rs lines 287-311): for a `Link`, when
`replace && backup` rename `dest` to `dest.with_extension("bkp")`, else
when `replace` remove the occupant — by `remove_dir_all` when
`dest.is_dir()` (which follows symlinks), by `remove_file` otherwise —
then create the symlink; for a `Noop`, execute the children in order. -/
def Plan.execute (rf : Nat) : Nat → FS → Plan → Except ExecErr FS
  | 0, _, _ => Except.error ExecErr.fuel
  | Nat.succ _fu, fs, Plan.link path dest replace backup =>
    (if replace && backup then renameF fs rf dest (withExtBkpP dest)
     else if replace then
       (if isDir fs rf dest then removeDirAllF fs rf dest else removeFileF fs rf dest)
     else Except.ok fs).bind (fun fs1 => symlinkF fs1 rf path dest)
  | Nat.succ fu, fs, Plan.noop _ _ ch =>
    seqExec (fun s c => Plan.execute rf fu s c) ch fs

/-! ### Path and list helper lemmas -/

theorem prefix_comparable {p q r : Path} (h1 : p <+: r) (h2 : q <+: r) :
    p <+: q ∨ q <+: p :=
  List.prefix_or_prefix_of_prefix h1 h2

theorem concat_cases (p : Path) : p = [] ∨ ∃ q c, p = q ++ [c] := by
  rcases List.eq_nil_or_concat p with h | ⟨q, c, h⟩
  · exact Or.inl h
  · exact Or.inr ⟨q, c, by simpa using h⟩

theorem concat_ne_self {q : Path} {c : String} : q ++ [c] ≠ q := by
  intro h
  have := congrArg List.length h
  simp at this

theorem not_concat_pre_self {q : Path} {c : String} : ¬ (q ++ [c] <+: q) := by
  intro h
  have := h.length_le
  simp at this

theorem concat_pre_concat {q : Path} {c c' : String} (h : q ++ [c] <+: q ++ [c']) :
    c = c' := by
  have h2 := (List.prefix_append_right_inj q).mp h
  simpa [List.cons_prefix_cons] using h2

theorem pre_concat_cases {k q : Path} {c : String} (h : k <+: q ++ [c]) :
    k <+: q ∨ k = q ++ [c] := by
  by_cases hl : k.length ≤ q.length
  · rcases prefix_comparable h (List.prefix_append q [c]) with h' | h'
    · exact Or.inl h'
    · exact Or.inl (List.IsPrefix.eq_of_length_le h' hl ▸ List.prefix_rfl)
  · refine Or.inr (List.IsPrefix.eq_of_length_le h ?_)
    have := h.length_le
    simp only [List.length_append, List.length_singleton] at this ⊢
    omega

theorem key_child {k r : Path} (h1 : r <+: k) (h2 : k.length = r.length + 1) :
    ∃ n, k = r ++ [n] := by
  rcases h1 with ⟨t, ht⟩
  subst ht
  simp only [List.length_append] at h2
  have ht1 : t.length = 1 := by omega
  obtain ⟨n, rfl⟩ := List.length_eq_one.mp ht1
  exact ⟨n, rfl⟩

/-! ### Raw lookup through filtered entry lists -/

theorem find?_key_filter (l : List (Path × Entry)) (q : Path → Bool) (k : Path)
    (hq : q k = true) :
    (l.filter (fun e => q e.1)).find? (fun e => decide (e.1 = k))
      = l.find? (fun e => decide (e.1 = k)) := by
  induction l with
  | nil => rfl
  | cons e l ih =>
    by_cases he : e.1 = k
    · simp [List.filter_cons, List.find?_cons, he, hq]
    · cases hqe : q e.1 <;> simp [List.filter_cons, hqe, List.find?_cons, he, ih]

theorem lookupRaw_of_filter_eq {fs₁ fs₂ : FS} (q : Path → Bool)
    (h : fs₂.entries.filter (fun e => q e.1) = fs₁.entries.filter (fun e => q e.1))
    (k : Path) (hq : q k = true) : lookupRaw fs₂ k = lookupRaw fs₁ k := by
  unfold lookupRaw
  rw [← find?_key_filter fs₂.entries q k hq, ← find?_key_filter fs₁.entries q k hq, h]

theorem filterMap_sel_filter (l : List (Path × Entry)) (q : Path → Bool) (r : Path)
    (hq : ∀ n : String, q (r ++ [n]) = true) :
    (l.filter (fun e => q e.1)).filterMap
        (fun e => if e.1.length = r.length + 1 ∧ r <+: e.1 then (e.1.drop r.length).head? else none)
      = l.filterMap
        (fun e => if e.1.length = r.length + 1 ∧ r <+: e.1 then (e.1.drop r.length).head? else none) := by
  induction l with
  | nil => rfl
  | cons e l ih =>
    by_cases hc : e.1.length = r.length + 1 ∧ r <+: e.1
    · obtain ⟨n, hn⟩ := key_child hc.2 hc.1
      have hqe : q e.1 = true := by rw [hn]; exact hq n
      simp only [List.filter_cons, hqe, if_true, List.filterMap_cons, ih]
    · have hsel : (if e.1.length = r.length + 1 ∧ r <+: e.1
          then (e.1.drop r.length).head? else none) = none := if_neg hc
      cases hqe : q e.1 with
      | false =>
        simp only [List.filter_cons, hqe, Bool.false_eq_true, if_false, ih]
        conv_rhs => simp only [List.filterMap_cons]
        rw [hsel]
      | true =>
        simp only [List.filter_cons, hqe, if_true, List.filterMap_cons, ih]

theorem childNames_of_filter_eq {fs₁ fs₂ : FS} (q : Path → Bool)
    (h : fs₂.entries.filter (fun e => q e.1) = fs₁.entries.filter (fun e => q e.1))
    (r : Path) (hq : ∀ n : String, q (r ++ [n]) = true) :
    childNames fs₂ r = childNames fs₁ r := by
  unfold childNames
  rw [← filterMap_sel_filter fs₂.entries q r hq, ← filterMap_sel_filter fs₁.entries q r hq, h]

/-! ### seqBuild and seqExec -/

theorem seqBuild_nil (g : String → Except BuildErr Plan) : seqBuild g [] = Except.ok [] := rfl

theorem seqBuild_cons (g : String → Except BuildErr Plan) (n : String) (ns : List String) :
    seqBuild g (n :: ns)
      = (g n).bind (fun c => (seqBuild g ns).map (fun cs => c :: cs)) := rfl

theorem seqBuild_ok {g : String → Except BuildErr Plan} {ns : List String} {cs : List Plan}
    (h : seqBuild g ns = Except.ok cs) :
    List.Forall₂ (fun n c => g n = Except.ok c) ns cs := by
  induction ns generalizing cs with
  | nil =>
    rw [seqBuild_nil] at h
    cases h
    exact List.Forall₂.nil
  | cons n ns ih =>
    rw [seqBuild_cons] at h
    cases hg : g n with
    | error e => rw [hg] at h; simp [Except.bind] at h
    | ok c =>
      rw [hg] at h
      cases hs : seqBuild g ns with
      | error e => rw [hs] at h; simp [Except.bind, Except.map] at h
      | ok cs' =>
        rw [hs] at h
        simp only [Except.bind, Except.map, Except.ok.injEq] at h
        subst h
        exact List.Forall₂.cons hg (ih hs)

theorem seqBuild_ok_of {g : String → Except BuildErr Plan} {ns : List String} {cs : List Plan}
    (h : List.Forall₂ (fun n c => g n = Except.ok c) ns cs) :
    seqBuild g ns = Except.ok cs := by
  induction h with
  | nil => rfl
  | cons hg _ ih => rw [seqBuild_cons, hg, ih]; rfl

theorem seqBuild_error_of {g : String → Except BuildErr Plan} {e : BuildErr}
    (ns₁ : List String) (n : String) (ns₂ : List String)
    (hok : ∀ m ∈ ns₁, ∃ c, g m = Except.ok c) (he : g n = Except.error e) :
    seqBuild g (ns₁ ++ n :: ns₂) = Except.error e := by
  induction ns₁ with
  | nil => rw [List.nil_append, seqBuild_cons, he]; rfl
  | cons m ms ih =>
    obtain ⟨c, hc⟩ := hok m (List.mem_cons_self m ms)
    rw [List.cons_append, seqBuild_cons, hc]
    have ih' := ih (fun x hx => hok x (List.mem_cons_of_mem m hx))
    rw [ih']
    rfl

theorem seqExec_err (h : FS → Plan → Except ExecErr FS) (cs : List Plan) (e : ExecErr) :
    cs.foldl (fun acc c => acc.bind (fun s => h s c)) (Except.error e) = Except.error e := by
  induction cs with
  | nil => rfl
  | cons c cs ih =>
    rw [List.foldl_cons]
    exact ih

theorem seqExec_nil (h : FS → Plan → Except ExecErr FS) (fs : FS) :
    seqExec h [] fs = Except.ok fs := rfl

theorem seqExec_cons (h : FS → Plan → Except ExecErr FS) (c : Plan) (cs : List Plan) (fs : FS) :
    seqExec h (c :: cs) fs = (h fs c).bind (fun s => seqExec h cs s) := by
  have key : seqExec h (c :: cs) fs
      = cs.foldl (fun acc c => acc.bind (fun s => h s c)) (h fs c) := rfl
  cases hc : h fs c with
  | error e =>
    rw [key, hc, seqExec_err h cs e]
    rfl
  | ok s =>
    rw [key, hc]
    rfl

/-! ### Raw ancestor chains and resolution over them -/

/-- Every proper nonempty ancestor of `p` is a raw directory entry. -/
def ancRawB (fs : FS) (p : Path) : Bool :=
  (List.range p.length).all (fun i => i == 0 || lookupRaw fs (p.take i) == some Entry.dir)

theorem ancRawB_spec {fs : FS} {p : Path} (h : ancRawB fs p = true) :
    ∀ q, q <+: p → q ≠ [] → q ≠ p → lookupRaw fs q = some Entry.dir := by
  intro q hq hne hnp
  have hql : q = p.take q.length := List.prefix_iff_eq_take.mp hq
  have hlt : q.length < p.length :=
    lt_of_le_of_ne hq.length_le (fun hl => hnp (List.IsPrefix.eq_of_length hq hl))
  have hall := List.all_eq_true.mp h q.length (List.mem_range.mpr hlt)
  have h0 : q.length ≠ 0 := by
    intro h0
    exact hne (List.length_eq_zero.mp h0)
  simp only [Bool.or_eq_true, beq_iff_eq, List.length_eq_zero] at hall
  rcases hall with h1 | h1
  · exact absurd h1 hne
  · rw [hql]
    exact h1

theorem ancRawB_of {fs : FS} {p : Path}
    (h : ∀ q, q <+: p → q ≠ [] → q ≠ p → lookupRaw fs q = some Entry.dir) :
    ancRawB fs p = true := by
  apply List.all_eq_true.mpr
  intro i hi
  rw [List.mem_range] at hi
  by_cases h0 : i = 0
  · simp [h0]
  · have htp : p.take i <+: p := List.take_prefix i p
    have hlen : (p.take i).length = i := by simp [Nat.le_of_lt hi]
    have hne : p.take i ≠ [] := by
      intro hq
      rw [hq] at hlen
      exact h0 hlen.symm
    have hnp : p.take i ≠ p := by
      intro hq
      rw [hq] at hlen
      omega
    simp [h (p.take i) htp hne hnp]

theorem resolveGo_succ (fs : FS) (f : Nat) (cur : Path) (c : String) (rest : List String) :
    resolveGo fs (f + 1) cur (c :: rest)
      = match lookupRaw fs (cur ++ [c]) with
        | none => none
        | some Entry.dir => resolveGo fs f (cur ++ [c]) rest
        | some (Entry.file _) => if rest.isEmpty then some (cur ++ [c]) else none
        | some (Entry.symlink t) =>
          match resolveGo fs f [] (if t.abs then t.comps else cur ++ t.comps) with
          | none => none
          | some r => resolveGo fs f r rest := rfl

theorem resolveGo_nil (fs : FS) (f : Nat) (cur : Path) : resolveGo fs f cur [] = some cur := by
  cases f <;> rfl

theorem resolveGo_chain (fs : FS) : ∀ (rest : List String) (f : Nat) (cur : Path),
    rest.length ≤ f →
    (∀ pre, pre ≠ ([] : List String) → pre <+: rest →
      lookupRaw fs (cur ++ pre) = some Entry.dir ∨
      (pre = rest ∧ ∃ i, lookupRaw fs (cur ++ pre) = some (Entry.file i))) →
    resolveGo fs f cur rest = some (cur ++ rest) := by
  intro rest
  induction rest with
  | nil => intro f cur _ _; simp [resolveGo_nil]
  | cons c rest ih =>
    intro f cur hf h
    match f with
    | 0 => simp at hf
    | Nat.succ f =>
      have h1 := h [c] (by simp) ⟨rest, rfl⟩
      rcases h1 with hdir | ⟨heq, i, hfile⟩
      · rw [resolveGo_succ, hdir]
        have htrans : ∀ pre, pre ≠ ([] : List String) → pre <+: rest →
            lookupRaw fs (cur ++ [c] ++ pre) = some Entry.dir ∨
            (pre = rest ∧ ∃ i, lookupRaw fs (cur ++ [c] ++ pre) = some (Entry.file i)) := by
          intro pre hne hpre
          have := h (c :: pre) (by simp) (List.cons_prefix_cons.mpr ⟨rfl, hpre⟩)
          rw [show cur ++ c :: pre = cur ++ [c] ++ pre by simp] at this
          rcases this with hd | ⟨hpr, hfi⟩
          · exact Or.inl hd
          · exact Or.inr ⟨by injection hpr, hfi⟩
        have := ih f (cur ++ [c]) (Nat.le_of_succ_le_succ hf) htrans
        rw [this]
        simp
      · have hrest : rest = [] := by
          injection heq with h1 h2
          exact h2.symm
        subst hrest
        rw [resolveGo_succ, hfile]
        simp

theorem resolve_raw (fs : FS) (f : Nat) (p : Path) (ha : ancRawB fs p = true)
    (he : lookupRaw fs p = some Entry.dir ∨ ∃ i, lookupRaw fs p = some (Entry.file i))
    (hf : p.length ≤ f) : resolve fs f p = some p := by
  unfold resolve
  have := resolveGo_chain fs p f [] hf (fun pre hne hpre => by
    simp only [List.nil_append]
    by_cases hp : pre = p
    · subst hp
      rcases he with hd | hfi
      · exact Or.inl hd
      · exact Or.inr ⟨rfl, hfi⟩
    · exact Or.inl (ancRawB_spec ha pre hpre hne hp))
  simpa using this

theorem statE_raw_dir (fs : FS) (f : Nat) (p : Path) (ha : ancRawB fs p = true)
    (hd : lookupRaw fs p = some Entry.dir) (hf : p.length ≤ f) :
    statE fs f p = some Entry.dir := by
  unfold statE
  rw [resolve_raw fs f p ha (Or.inl hd) hf]
  by_cases hp : p = []
  · simp [hp]
  · simp [hp, hd, List.isEmpty_iff]

theorem statE_raw_file (fs : FS) (f : Nat) (p : Path) (hp : p ≠ []) (ha : ancRawB fs p = true)
    (i : Nat) (hfile : lookupRaw fs p = some (Entry.file i)) (hf : p.length ≤ f) :
    statE fs f p = some (Entry.file i) := by
  unfold statE
  rw [resolve_raw fs f p ha (Or.inr ⟨i, hfile⟩) hf]
  simp [hp, hfile, List.isEmpty_iff]

theorem resolve_nil (fs : FS) (f : Nat) : resolve fs f [] = some [] := by
  unfold resolve
  exact resolveGo_nil fs f []

theorem ancRawB_of_concat {fs : FS} {q : Path} {c : String}
    (ha : ancRawB fs (q ++ [c]) = true) (hq : q ≠ []) : lookupRaw fs q = some Entry.dir := by
  refine ancRawB_spec ha q (List.prefix_append q [c]) hq ?_
  intro h
  exact concat_ne_self h.symm

theorem ancRawB_dropLast {fs : FS} {q : Path} {c : String}
    (ha : ancRawB fs (q ++ [c]) = true) : ancRawB fs q = true := by
  apply ancRawB_of
  intro r hr hne hnq
  refine ancRawB_spec ha r (hr.trans (List.prefix_append q [c])) hne ?_
  intro hcon
  have h1 := hr.length_le
  rw [hcon] at h1
  simp at h1

theorem resolve_parent_raw (fs : FS) (f : Nat) {q : Path} {c : String}
    (ha : ancRawB fs (q ++ [c]) = true) (hf : q.length ≤ f) :
    resolve fs f q = some q := by
  by_cases hq : q = []
  · subst hq; exact resolve_nil fs f
  · exact resolve_raw fs f q (ancRawB_dropLast ha) (Or.inl (ancRawB_of_concat ha hq)) hf

theorem lstatE_raw (fs : FS) (f : Nat) {q : Path} {c : String}
    (ha : ancRawB fs (q ++ [c]) = true) (hf : q.length ≤ f) :
    lstatE fs f (q ++ [c]) = lookupRaw fs (q ++ [c]) := by
  unfold lstatE
  rw [List.getLast?_concat, List.dropLast_concat, resolve_parent_raw fs f ha hf]

/-! ### Case analysis of Plan.new -/

theorem new_notFound {fs : FS} {rf : Nat} {b : Bool} {fu : Nat} {p d : Path}
    (h : pathExists fs rf p = false) :
    Plan.new fs rf b (fu + 1) p d = Except.error (BuildErr.notFound p) := by
  simp [Plan.new, h]

theorem new_io {fs : FS} {rf : Nat} {b : Bool} {fu : Nat} {p d : Path}
    (h1 : pathExists fs rf p = true) (h2 : isDir fs rf p = true)
    (h3 : read_dir fs rf p = none) :
    Plan.new fs rf b (fu + 1) p d = Except.error (BuildErr.io p) := by
  simp [Plan.new, h1, h2, h3]

theorem new_child_error {fs : FS} {rf : Nat} {b : Bool} {fu : Nat} {p d : Path}
    {ns : List String} {e : BuildErr}
    (h1 : pathExists fs rf p = true) (h2 : isDir fs rf p = true)
    (h3 : read_dir fs rf p = some ns)
    (h4 : seqBuild (fun n => Plan.new fs rf b fu (p ++ [n]) (d ++ [n])) ns = Except.error e) :
    Plan.new fs rf b (fu + 1) p d = Except.error e := by
  simp [Plan.new, h1, h2, h3, h4]

theorem new_dir_ok {fs : FS} {rf : Nat} {b : Bool} {fu : Nat} {p d : Path}
    {ns : List String} {cs : List Plan}
    (h1 : pathExists fs rf p = true) (h2 : isDir fs rf p = true)
    (h3 : read_dir fs rf p = some ns)
    (h4 : seqBuild (fun n => Plan.new fs rf b fu (p ++ [n]) (d ++ [n])) ns = Except.ok cs) :
    Plan.new fs rf b (fu + 1) p d
      = if isDir fs rf d then Except.ok (Plan.noop p d cs)
        else Except.ok (Plan.link p d (occB fs rf d) b) := by
  simp [Plan.new, h1, h2, h3, h4]

theorem new_file {fs : FS} {rf : Nat} {b : Bool} {fu : Nat} {p d : Path}
    (h1 : pathExists fs rf p = true) (h2 : isDir fs rf p = false) :
    Plan.new fs rf b (fu + 1) p d
      = match resolve fs rf p with
        | none => Except.error (BuildErr.canon p)
        | some cp =>
          if canDest fs rf d = some cp then Except.ok (Plan.noop p d [])
          else Except.ok (Plan.link p d (occB fs rf d) b) := by
  simp [Plan.new, h1, h2]

theorem new_ok_inv {fs : FS} {rf : Nat} {b : Bool} {fu : Nat} {p d : Path} {P : Plan}
    (h : Plan.new fs rf b (fu + 1) p d = Except.ok P) :
    pathExists fs rf p = true ∧
    ((∃ ns cs, isDir fs rf p = true ∧ read_dir fs rf p = some ns ∧
        seqBuild (fun n => Plan.new fs rf b fu (p ++ [n]) (d ++ [n])) ns = Except.ok cs ∧
        ((isDir fs rf d = true ∧ P = Plan.noop p d cs) ∨
         (isDir fs rf d = false ∧ P = Plan.link p d (occB fs rf d) b))) ∨
     (∃ cp, isDir fs rf p = false ∧ resolve fs rf p = some cp ∧
        ((canDest fs rf d = some cp ∧ P = Plan.noop p d []) ∨
         (canDest fs rf d ≠ some cp ∧ P = Plan.link p d (occB fs rf d) b)))) := by
  cases hpe : pathExists fs rf p with
  | false => rw [new_notFound hpe] at h; cases h
  | true =>
    refine ⟨rfl, ?_⟩
    cases hid : isDir fs rf p with
    | true =>
      cases hrd : read_dir fs rf p with
      | none => rw [new_io hpe hid hrd] at h; cases h
      | some ns =>
        cases hsb : seqBuild (fun n => Plan.new fs rf b fu (p ++ [n]) (d ++ [n])) ns with
        | error e => rw [new_child_error hpe hid hrd hsb] at h; cases h
        | ok cs =>
          rw [new_dir_ok hpe hid hrd hsb] at h
          left
          refine ⟨ns, cs, rfl, rfl, hsb, ?_⟩
          cases hdd : isDir fs rf d with
          | true =>
            rw [hdd] at h
            simp only [if_true, Except.ok.injEq] at h
            exact Or.inl ⟨rfl, h.symm⟩
          | false =>
            rw [hdd] at h
            simp only [Bool.false_eq_true, if_false, Except.ok.injEq] at h
            exact Or.inr ⟨rfl, h.symm⟩
    | false =>
      rw [new_file hpe hid] at h
      cases hr : resolve fs rf p with
      | none => rw [hr] at h; cases h
      | some cp =>
        rw [hr] at h
        have h' : (if canDest fs rf d = some cp then Except.ok (Plan.noop p d [])
            else Except.ok (Plan.link p d (occB fs rf d) b)) = Except.ok P := h
        right
        refine ⟨cp, rfl, rfl, ?_⟩
        by_cases hc : canDest fs rf d = some cp
        · rw [if_pos hc] at h'
          cases h'
          exact Or.inl ⟨hc, rfl⟩
        · rw [if_neg hc] at h'
          cases h'
          exact Or.inr ⟨hc, rfl⟩

theorem new_ok_root {fs : FS} {rf : Nat} {b : Bool} {fu : Nat} {p d : Path} {P : Plan}
    (h : Plan.new fs rf b fu p d = Except.ok P) : P.pathOf = p ∧ P.destOf = d := by
  match fu with
  | 0 => simp [Plan.new] at h
  | Nat.succ fu =>
    obtain ⟨-, hcases⟩ := new_ok_inv h
    rcases hcases with ⟨ns, cs, -, -, -, ⟨-, rfl⟩ | ⟨-, rfl⟩⟩ | ⟨cp, -, -, ⟨-, rfl⟩ | ⟨-, rfl⟩⟩ <;>
      simp [Plan.pathOf, Plan.destOf]

theorem forall₂_mem_right {α β : Type} {R : α → β → Prop} {ns : List α} {cs : List β}
    (h : List.Forall₂ R ns cs) {c : β} (hc : c ∈ cs) : ∃ n ∈ ns, R n c := by
  induction h with
  | nil => cases hc
  | cons hr ht ih =>
    rcases List.mem_cons.mp hc with rfl | hc'
    · exact ⟨_, List.mem_cons_self _ _, hr⟩
    · obtain ⟨n, hn, hrn⟩ := ih hc'
      exact ⟨n, List.mem_cons_of_mem _ hn, hrn⟩

theorem forall₂_map_eq {R : String → Plan → Prop} {ns : List String} {cs : List Plan}
    (h : List.Forall₂ R ns cs) (f : Plan → Path) (u : String → Path)
    (hf : ∀ n c, R n c → f c = u n) : cs.map f = ns.map u := by
  induction h with
  | nil => rfl
  | cons hr _ ih => simp [hf _ _ hr, ih]

/-! ## Claim C4 -/

/-- C4 — No panic on unresolvable links: for a file source whose `dest`
holds a symlink whose target cannot be resolved (broken target or any
canonicalization failure), `Plan::new` returns normally (the `Err(_) =>
None` arm and the guarded `unwrap` admit no panic), treats the failed
resolution as a non-match, and yields `Link` with `replace = true`
(the occupant is a symlink, so `dest_exists_or_is_link` holds). -/
theorem C4_no_panic_unresolvable_link (fs : FS) (rf : Nat) (b : Bool) (fu : Nat)
    (p d cp : Path) (t : STarget)
    (hex : pathExists fs rf p = true)
    (hfile : isDir fs rf p = false)
    (hcan : resolve fs rf p = some cp)
    (hlink : read_link fs rf d = some t)
    (hbroken : resolve fs rf (if t.abs then t.comps else d.dropLast ++ t.comps) = none) :
    Plan.new fs rf b (fu + 1) p d = Except.ok (Plan.link p d true b) := by
  have hcd : canDest fs rf d = none := by
    unfold canDest
    rw [hlink]
    exact hbroken
  have hocc : occB fs rf d = true := by
    unfold occB
    rw [hlink]
    simp
  rw [new_file hex hfile, hcan]
  simp [hcd, hocc]

/-- Concrete instance for C4: `["d","f"]` is a symlink to the missing
absolute path `["nowhere"]`. -/
def fsC4 : FS :=
  ⟨[(["s"], Entry.dir), (["s", "f"], Entry.file 0), (["d"], Entry.dir),
    (["d", "f"], Entry.symlink ⟨true, ["nowhere"]⟩)], []⟩

theorem C4_witness :
    Plan.new fsC4 10 true 1 ["s", "f"] ["d", "f"]
      = Except.ok (Plan.link ["s", "f"] ["d", "f"] true true) :=
  C4_no_panic_unresolvable_link fsC4 10 true 0 ["s", "f"] ["d", "f"] ["s", "f"]
    ⟨true, ["nowhere"]⟩ (by rfl) (by rfl) (by rfl) (by rfl) (by rfl)

/-! ## Claim C5 -/

/-- C5 — Relative symlink resolution: for a file source whose `dest` is a
pre-existing relative symlink, the stored target is resolved against the
symlink's own parent directory (`dest.dropLast`, the model of
`dest.parent()` in src/main.rs line 239; the model has no working
directory at all).  When the resolved target equals the canonicalized
source the node is `Noop`; when it resolves to anything else the node is
`Link` with `replace = true`. -/
theorem C5_relative_symlink_resolution (fs : FS) (rf : Nat) (b : Bool) (fu : Nat)
    (p d cp : Path) (tc : Path)
    (hex : pathExists fs rf p = true)
    (hfile : isDir fs rf p = false)
    (hcan : resolve fs rf p = some cp)
    (hlink : read_link fs rf d = some ⟨false, tc⟩) :
    Plan.new fs rf b (fu + 1) p d
      = if resolve fs rf (d.dropLast ++ tc) = some cp then Except.ok (Plan.noop p d [])
        else Except.ok (Plan.link p d true b) := by
  have hcd : canDest fs rf d = resolve fs rf (d.dropLast ++ tc) := by
    unfold canDest
    rw [hlink]
    rfl
  have hocc : occB fs rf d = true := by
    unfold occB
    rw [hlink]
    simp
  rw [new_file hex hfile, hcan]
  by_cases hm : resolve fs rf (d.dropLast ++ tc) = some cp
  · simp [hcd, hm]
  · simp [hcd, hm, hocc]

/-- Concrete instance for C5: `["d","f"]` is a relative symlink with
target `["src","f"]`, which resolved against the link's parent `["d"]`
reaches the source file `["d","src","f"]`. -/
def fsC5 : FS :=
  ⟨[(["d"], Entry.dir), (["d", "src"], Entry.dir), (["d", "src", "f"], Entry.file 0),
    (["d", "f"], Entry.symlink ⟨false, ["src", "f"]⟩)], []⟩

theorem C5_witness :
    Plan.new fsC5 10 false 1 ["d", "src", "f"] ["d", "f"]
      = Except.ok (Plan.noop ["d", "src", "f"] ["d", "f"] []) :=
  (C5_relative_symlink_resolution fsC5 10 false 0 ["d", "src", "f"] ["d", "f"]
    ["d", "src", "f"] ["src", "f"] (by rfl) (by rfl) (by rfl) (by rfl)).trans (by rfl)

/-! ## Claim C6 -/

/-- Every `Link` node of a plan carries `replace` equal to the build-time
occupancy of its destination (`dest.exists() || read_link(dest).is_ok()`). -/
def ReplOk (fs : FS) (rf : Nat) : Plan → Bool
  | Plan.link _ d rep _ => rep == occB fs rf d
  | Plan.noop _ _ [] => true
  | Plan.noop p d (c :: cs) => ReplOk fs rf c && ReplOk fs rf (Plan.noop p d cs)

theorem ReplOk_noop (fs : FS) (rf : Nat) (p d : Path) (ch : List Plan) :
    ReplOk fs rf (Plan.noop p d ch) = ch.all (fun c => ReplOk fs rf c) := by
  induction ch with
  | nil => simp [ReplOk]
  | cons c cs ih => simp [ReplOk, ih, List.all_cons]

/-- The occupancy expression of line 205 holds exactly when `dest`
resolves to a live file or directory, or holds a (possibly broken)
symlink. -/
theorem occB_iff (fs : FS) (rf : Nat) (d : Path) :
    occB fs rf d = true
      ↔ ((statE fs rf d).isSome = true ∨ ∃ t, lstatE fs rf d = some (Entry.symlink t)) := by
  unfold occB read_link pathExists
  cases hl : lstatE fs rf d with
  | none => simp
  | some e => cases e <;> simp

/-- C6 — Replace-flag invariant: in every plan returned by `Plan::new`,
each `Link` node has `replace` equal to the build-time occupancy of its
`dest` (something occupies `dest`: a resolvable file or directory, or a
symlink including a broken one — see `occB_iff`).  In particular
`replace = true` only if `dest` is occupied, and an unoccupied `dest`
forces `replace = false`. -/
theorem C6_replace_invariant (fs : FS) (rf : Nat) (b : Bool) :
    ∀ (fu : Nat) (p d : Path) (P : Plan),
      Plan.new fs rf b fu p d = Except.ok P → ReplOk fs rf P = true := by
  intro fu
  induction fu with
  | zero => intro p d P h; simp [Plan.new] at h
  | succ fu ih =>
    intro p d P h
    obtain ⟨hpe, hcases⟩ := new_ok_inv h
    rcases hcases with ⟨ns, cs, hdir, hrd, hsb, hcase⟩ | ⟨cp, hfile, hres, hcase⟩
    · rcases hcase with ⟨hdd, rfl⟩ | ⟨hdd, rfl⟩
      · rw [ReplOk_noop]
        apply List.all_eq_true.mpr
        intro c hc
        obtain ⟨n, -, hn⟩ := forall₂_mem_right (seqBuild_ok hsb) hc
        exact ih _ _ _ hn
      · simp [ReplOk]
    · rcases hcase with ⟨hcd, rfl⟩ | ⟨hcd, rfl⟩
      · simp [ReplOk]
      · simp [ReplOk]

/-- Concrete instance for C6: one unoccupied directory destination
(`replace = false`) and one occupied file destination (`replace = true`). -/
def fsC6 : FS :=
  ⟨[(["s"], Entry.dir), (["s", "sub"], Entry.dir), (["s", "sub", "f"], Entry.file 0),
    (["s", "g"], Entry.file 1), (["d"], Entry.dir), (["d", "g"], Entry.file 5)], []⟩

theorem C6_witness :
    ReplOk fsC6 10
      (Plan.noop ["s"] ["d"]
        [Plan.link ["s", "sub"] ["d", "sub"] false true,
         Plan.link ["s", "g"] ["d", "g"] true true]) = true :=
  C6_replace_invariant fsC6 10 true 3 ["s"] ["d"]
    (Plan.noop ["s"] ["d"]
      [Plan.link ["s", "sub"] ["d", "sub"] false true,
       Plan.link ["s", "g"] ["d", "g"] true true]) (by rfl)

/-! ## Claim C7 -/

/-- Concrete instance for C7: source directory `["s"]` with one file,
destination `["o"]` occupied by a plain file (not a directory). -/
def fsC7 : FS := ⟨[(["s"], Entry.dir), (["s", "f"], Entry.file 0), (["o"], Entry.file 7)], []⟩

/-- C7 counterexample: the claim says the `Link` node returned for a
directory-as-Link "still carries those computed children".  At this
concrete input the child sub-plan is computed (third conjunct: the
child-building fold yields the nonempty list with the sub-plan for
`"f"`), yet the returned `Link` node carries no children at all (the
`Plan::Link` variant has no children field, so its children list is
empty, second conjunct), so the returned node does not carry the
computed children (fourth conjunct). -/
theorem C7_counterexample :
    Plan.new fsC7 10 false 2 ["s"] ["o"] = Except.ok (Plan.link ["s"] ["o"] true false)
    ∧ (Plan.link ["s"] ["o"] true false).childrenOf = []
    ∧ seqBuild (fun n => Plan.new fsC7 10 false 1 (["s"] ++ [n]) (["o"] ++ [n])) ["f"]
        = Except.ok [Plan.link ["s", "f"] ["o", "f"] false false]
    ∧ (Plan.link ["s"] ["o"] true false).childrenOf
        ≠ [Plan.link ["s", "f"] ["o", "f"] false false] := by
  refine ⟨rfl, rfl, rfl, ?_⟩
  simp [Plan.childrenOf]

/-- C7 amended: for a source directory whose `dest` is not an existing
directory, the builder does compute a sub-plan for every direct entry —
a failing sub-build aborts the whole build with that error (second
conjunct) — but the computed children are then discarded: the returned
node is a `Link`, and the `Plan::Link` variant carries no children
(`childrenOf` is empty), so execution necessarily treats the whole
subtree as one unit. -/
theorem C7_directory_link_children (fs : FS) (rf : Nat) (b : Bool) (fu : Nat)
    (p d : Path) (ns : List String)
    (h1 : pathExists fs rf p = true) (h2 : isDir fs rf p = true)
    (h3 : read_dir fs rf p = some ns) (h5 : isDir fs rf d = false) :
    (∀ cs, seqBuild (fun n => Plan.new fs rf b fu (p ++ [n]) (d ++ [n])) ns = Except.ok cs →
      Plan.new fs rf b (fu + 1) p d = Except.ok (Plan.link p d (occB fs rf d) b) ∧
      (Plan.link p d (occB fs rf d) b).childrenOf = []) ∧
    (∀ e, seqBuild (fun n => Plan.new fs rf b fu (p ++ [n]) (d ++ [n])) ns = Except.error e →
      Plan.new fs rf b (fu + 1) p d = Except.error e) := by
  constructor
  · intro cs hcs
    rw [new_dir_ok h1 h2 h3 hcs, h5]
    exact ⟨by simp, rfl⟩
  · intro e he
    exact new_child_error h1 h2 h3 he

theorem C7_witness :
    Plan.new fsC7 10 false 2 ["s"] ["o"] = Except.ok (Plan.link ["s"] ["o"] true false) ∧
    (Plan.link ["s"] ["o"] true false).childrenOf = [] := by
  have h := (C7_directory_link_children fsC7 10 false 1 ["s"] ["o"] ["f"]
    (by rfl) (by rfl) (by rfl) (by rfl)).1
    [Plan.link ["s", "f"] ["o", "f"] false false] (by rfl)
  exact ⟨h.1.trans (by rfl), h.2⟩

/-! ## Claim C8 -/

/-- Concrete instance for C8: two source files, stored with `"b"` before
`"a"`. -/
def fsC8 : FS :=
  ⟨[(["s"], Entry.dir), (["s", "b"], Entry.file 0), (["s", "a"], Entry.file 1),
    (["d"], Entry.dir)], []⟩

/-- The same filesystem content with the two files stored in the other
order. -/
def fsC8' : FS :=
  ⟨[(["s"], Entry.dir), (["s", "a"], Entry.file 1), (["s", "b"], Entry.file 0),
    (["d"], Entry.dir)], []⟩

/-- C8 counterexample: the claim says the children are enumerated in a
deterministic order sorted by entry name.  `Plan::new` applies no sort:
the children come out in `read_dir` (storage) order.  The two
filesystems hold the same entries (third conjunct: one is a permutation
of the other, so both describe a directory `["s"]` with exactly the
files `"a"` and `"b"`), yet the children lists come out in opposite
orders (first two conjuncts), so at least one of the two runs is not
sorted by name — the order is not a function of the names at all. -/
theorem C8_counterexample :
    Plan.new fsC8 10 false 2 ["s"] ["d"]
      = Except.ok (Plan.noop ["s"] ["d"]
          [Plan.link ["s", "b"] ["d", "b"] false false,
           Plan.link ["s", "a"] ["d", "a"] false false])
    ∧ Plan.new fsC8' 10 false 2 ["s"] ["d"]
      = Except.ok (Plan.noop ["s"] ["d"]
          [Plan.link ["s", "a"] ["d", "a"] false false,
           Plan.link ["s", "b"] ["d", "b"] false false])
    ∧ fsC8.entries.Perm fsC8'.entries := by
  refine ⟨rfl, rfl, ?_⟩
  exact List.Perm.cons _ (List.Perm.swap _ _ _)

/-- C8 amended: the children of a directory node appear exactly in the
order `read_dir` yields the entry names (storage order in the model);
no sorting is applied, so the order is whatever the directory
enumeration produces. -/
theorem C8_read_dir_order (fs : FS) (rf : Nat) (b : Bool) (fu : Nat)
    (p d : Path) (ns : List String) (cs : List Plan)
    (h1 : pathExists fs rf p = true) (h2 : isDir fs rf p = true)
    (h3 : read_dir fs rf p = some ns)
    (h4 : seqBuild (fun n => Plan.new fs rf b fu (p ++ [n]) (d ++ [n])) ns = Except.ok cs)
    (h5 : isDir fs rf d = true) :
    Plan.new fs rf b (fu + 1) p d = Except.ok (Plan.noop p d cs) ∧
    cs.map Plan.pathOf = ns.map (fun n => p ++ [n]) ∧
    cs.map Plan.destOf = ns.map (fun n => d ++ [n]) := by
  refine ⟨by rw [new_dir_ok h1 h2 h3 h4, h5]; simp, ?_, ?_⟩
  · exact forall₂_map_eq (seqBuild_ok h4) Plan.pathOf (fun n => p ++ [n])
      (fun n c hc => (new_ok_root hc).1)
  · exact forall₂_map_eq (seqBuild_ok h4) Plan.destOf (fun n => d ++ [n])
      (fun n c hc => (new_ok_root hc).2)

theorem C8_witness :
    Plan.new fsC8 10 false 2 ["s"] ["d"]
      = Except.ok (Plan.noop ["s"] ["d"]
          [Plan.link ["s", "b"] ["d", "b"] false false,
           Plan.link ["s", "a"] ["d", "a"] false false]) ∧
    [Plan.link ["s", "b"] ["d", "b"] false false,
     Plan.link ["s", "a"] ["d", "a"] false false].map Plan.pathOf
      = ["b", "a"].map (fun n => ["s"] ++ [n]) :=
  ⟨(C8_read_dir_order fsC8 10 false 1 ["s"] ["d"] ["b", "a"]
      [Plan.link ["s", "b"] ["d", "b"] false false,
       Plan.link ["s", "a"] ["d", "a"] false false]
      (by rfl) (by rfl) (by rfl) (by rfl) (by rfl)).1,
   (C8_read_dir_order fsC8 10 false 1 ["s"] ["d"] ["b", "a"]
      [Plan.link ["s", "b"] ["d", "b"] false false,
       Plan.link ["s", "a"] ["d", "a"] false false]
      (by rfl) (by rfl) (by rfl) (by rfl) (by rfl)).2.1⟩

/-! ## Claim C9 -/

/-- C9 — Fail-fast build errors: a missing source aborts the build with
an error naming that path (first conjunct); an unreadable directory
aborts it with an error naming that directory (second conjunct); and an
error arising anywhere in the recursion — after any run of successful
sibling builds — aborts the entire build with that same inner error
(third conjunct).  The return type is a single `Except`, so an aborted
build returns no partial plan. -/
theorem C9_fail_fast_build_errors (fs : FS) (rf : Nat) (b : Bool) (fu : Nat) (p d : Path) :
    (pathExists fs rf p = false →
      Plan.new fs rf b (fu + 1) p d = Except.error (BuildErr.notFound p)) ∧
    (pathExists fs rf p = true → isDir fs rf p = true → read_dir fs rf p = none →
      Plan.new fs rf b (fu + 1) p d = Except.error (BuildErr.io p)) ∧
    (∀ (ns₁ : List String) (n : String) (ns₂ : List String) (e : BuildErr),
      pathExists fs rf p = true → isDir fs rf p = true →
      read_dir fs rf p = some (ns₁ ++ n :: ns₂) →
      (∀ m ∈ ns₁, ∃ c, Plan.new fs rf b fu (p ++ [m]) (d ++ [m]) = Except.ok c) →
      Plan.new fs rf b fu (p ++ [n]) (d ++ [n]) = Except.error e →
      Plan.new fs rf b (fu + 1) p d = Except.error e) := by
  refine ⟨new_notFound, new_io, ?_⟩
  intro ns₁ n ns₂ e h1 h2 h3 hok he
  exact new_child_error h1 h2 h3 (seqBuild_error_of ns₁ n ns₂ hok he)

/-- Concrete instances for C9: an empty filesystem (missing source), an
unreadable source root, and an unreadable nested subdirectory. -/
def fsC9a : FS := ⟨[], []⟩

def fsC9b : FS := ⟨[(["s"], Entry.dir)], [["s"]]⟩

def fsC9c : FS := ⟨[(["s"], Entry.dir), (["s", "sub"], Entry.dir), (["d"], Entry.dir)], [["s", "sub"]]⟩

theorem C9_witness :
    Plan.new fsC9a 10 false 1 ["s"] ["d"] = Except.error (BuildErr.notFound ["s"]) ∧
    Plan.new fsC9b 10 false 1 ["s"] ["d"] = Except.error (BuildErr.io ["s"]) ∧
    Plan.new fsC9c 10 false 2 ["s"] ["d"] = Except.error (BuildErr.io ["s", "sub"]) := by
  refine ⟨(C9_fail_fast_build_errors fsC9a 10 false 0 ["s"] ["d"]).1 (by rfl),
    (C9_fail_fast_build_errors fsC9b 10 false 0 ["s"] ["d"]).2.1 (by rfl) (by rfl) (by rfl),
    (C9_fail_fast_build_errors fsC9c 10 false 1 ["s"] ["d"]).2.2 [] "sub" [] (BuildErr.io ["s", "sub"])
      (by rfl) (by rfl) (by rfl) (by intro m hm; cases hm) ?_⟩
  exact (C9_fail_fast_build_errors fsC9c 10 false 0 (["s"] ++ ["sub"]) (["d"] ++ ["sub"])).2.1
    (by rfl) (by rfl) (by rfl)

/-! ### Execution-step lemmas -/

theorem execute_link (rf fe : Nat) (fs : FS) (p d : Path) (rep bk : Bool) :
    Plan.execute rf (fe + 1) fs (Plan.link p d rep bk)
      = (if rep && bk then renameF fs rf d (withExtBkpP d)
         else if rep then
           (if isDir fs rf d then removeDirAllF fs rf d else removeFileF fs rf d)
         else Except.ok fs).bind (fun fs1 => symlinkF fs1 rf p d) := rfl

theorem withExtBkpP_concat (q : Path) (c : String) :
    withExtBkpP (q ++ [c]) = q ++ [withExtBkp c] := by
  unfold withExtBkpP
  rw [List.getLast?_concat, List.dropLast_concat]

theorem strict_pre_concat_len {r q : Path} {c : String}
    (h : r <+: q ++ [c]) (hne : r ≠ q ++ [c]) : r.length ≤ q.length := by
  rcases pre_concat_cases h with h' | h'
  · exact h'.length_le
  · exact absurd h' hne

/-- Ancestors survive any key-filtering operation that keeps them. -/
theorem ancRawB_filter (fs : FS) (q : Path → Bool) (p : Path)
    (ha : ancRawB fs p = true) (hq : ∀ k, k <+: p → k ≠ p → q k = true) :
    ancRawB { fs with entries := fs.entries.filter (fun e => q e.1) } p = true := by
  apply ancRawB_of
  intro r hr hne hnp
  have hd := ancRawB_spec ha r hr hne hnp
  unfold lookupRaw at hd ⊢
  rw [find?_key_filter fs.entries q r (hq r hr hnp)]
  exact hd

theorem lookupRaw_filter_keep (fs : FS) (q : Path → Bool) (k : Path) (hq : q k = true) :
    lookupRaw { fs with entries := fs.entries.filter (fun e => q e.1) } k = lookupRaw fs k := by
  unfold lookupRaw
  rw [find?_key_filter fs.entries q k hq]

theorem lookupRaw_filter_drop (fs : FS) (q : Path → Bool) (k : Path) (hq : q k = false) :
    lookupRaw { fs with entries := fs.entries.filter (fun e => q e.1) } k = none := by
  unfold lookupRaw
  rw [List.find?_eq_none.mpr]
  · rfl
  · intro e he hk
    have hm := List.mem_filter.mp he
    rw [decide_eq_true_eq] at hk
    rw [hk] at hm
    rw [hq] at hm
    exact absurd hm.2 (by simp)

theorem find?_append_entries (l₁ l₂ : List (Path × Entry)) (pfn : Path × Entry → Bool) :
    (l₁ ++ l₂).find? pfn = ((l₁.find? pfn).or (l₂.find? pfn)) := by
  induction l₁ with
  | nil => simp
  | cons e l ih =>
    cases hp : pfn e <;> simp [List.find?_cons, hp, ih]

theorem lookupRaw_insert_same (fs : FS) (k : Path) (ent : Entry)
    (h : lookupRaw fs k = none) : lookupRaw (insertEntry fs k ent) k = some ent := by
  unfold lookupRaw insertEntry at *
  rw [find?_append_entries]
  cases hf : fs.entries.find? (fun e => decide (e.1 = k)) with
  | none => simp [List.find?_cons]
  | some v => rw [hf] at h; simp at h

theorem lookupRaw_insert_other (fs : FS) (k : Path) (ent : Entry) (k' : Path)
    (h : k' ≠ k) : lookupRaw (insertEntry fs k ent) k' = lookupRaw fs k' := by
  unfold lookupRaw insertEntry
  rw [find?_append_entries]
  cases hf : fs.entries.find? (fun e => decide (e.1 = k')) with
  | none => simp [List.find?_cons, Ne.symm h]
  | some v => simp

/-- Creating the symlink at a raw-parented free destination. -/
theorem symlinkF_ok (fs : FS) (rf : Nat) (src : Path) {q : Path} {c : String}
    (ha : ancRawB fs (q ++ [c]) = true) (hf : q.length ≤ rf)
    (hfree : lookupRaw fs (q ++ [c]) = none) :
    symlinkF fs rf src (q ++ [c])
      = Except.ok (insertEntry fs (q ++ [c]) (Entry.symlink ⟨true, src⟩)) := by
  unfold symlinkF
  simp only [List.getLast?_concat, List.dropLast_concat, resolve_parent_raw fs rf ha hf]
  simp [hfree]

/-- Removing a raw-parented non-directory occupant. -/
theorem removeFileF_ok (fs : FS) (rf : Nat) {q : Path} {c : String}
    (ha : ancRawB fs (q ++ [c]) = true) (hf : q.length ≤ rf)
    {e : Entry} (he : lookupRaw fs (q ++ [c]) = some e) (hnd : e ≠ Entry.dir) :
    removeFileF fs rf (q ++ [c]) = Except.ok (eraseKey fs (q ++ [c])) := by
  unfold removeFileF
  simp only [List.getLast?_concat, List.dropLast_concat, resolve_parent_raw fs rf ha hf]
  cases e with
  | dir => exact absurd rfl hnd
  | file i => simp [he]
  | symlink t => simp [he]

theorem removeDirAllF_symlink (fs : FS) (rf : Nat) {q : Path} {c : String}
    (ha : ancRawB fs (q ++ [c]) = true) (hf : q.length ≤ rf)
    {t : STarget} (he : lookupRaw fs (q ++ [c]) = some (Entry.symlink t)) :
    removeDirAllF fs rf (q ++ [c]) = Except.ok (eraseKey fs (q ++ [c])) := by
  unfold removeDirAllF
  simp only [List.getLast?_concat, List.dropLast_concat, resolve_parent_raw fs rf ha hf]
  simp [he]

theorem removeDirAllF_dir (fs : FS) (rf : Nat) {q : Path} {c : String}
    (ha : ancRawB fs (q ++ [c]) = true) (hf : q.length ≤ rf)
    (he : lookupRaw fs (q ++ [c]) = some Entry.dir) :
    removeDirAllF fs rf (q ++ [c]) = Except.ok (eraseTree fs (q ++ [c])) := by
  unfold removeDirAllF
  simp only [List.getLast?_concat, List.dropLast_concat, resolve_parent_raw fs rf ha hf]
  simp [he]

/-! ### Rename effect lemmas -/

theorem mvList_lookup_root (ka kb : Path) (l : List (Path × Entry))
    (h2 : ¬ kb <+: ka) :
    (mvList ka kb l).find? (fun e => decide (e.1 = kb))
      = (l.find? (fun e => decide (e.1 = ka))).map (fun e => (kb, e.2)) := by
  induction l with
  | nil => rfl
  | cons e l ih =>
    unfold mvList at ih ⊢
    by_cases hkb : kb <+: e.1
    · have hka : e.1 ≠ ka := fun h => h2 (h ▸ hkb)
      rw [List.filter_cons_of_neg (by simpa using hkb)]
      rw [List.find?_cons_of_neg l (by simpa using hka)]
      exact ih
    · rw [List.filter_cons_of_pos (by simpa using hkb), List.map_cons]
      by_cases hk : e.1 = ka
      · rw [if_pos (by rw [hk])]
        have hkey : kb ++ e.1.drop ka.length = kb := by
          rw [hk]
          simp
        rw [hkey]
        rw [List.find?_cons_of_pos _ (by simp)]
        rw [List.find?_cons_of_pos l (by simpa using hk)]
        rfl
      · by_cases hmv : ka <+: e.1
        · have hlen : kb.length < (kb ++ e.1.drop ka.length).length := by
            obtain ⟨t, ht⟩ := hmv
            have htne : t ≠ [] := fun h0 => hk (by rw [← ht, h0, List.append_nil])
            have hlt : ka.length < e.1.length := by
              rw [← ht, List.length_append]
              cases t with
              | nil => exact absurd rfl htne
              | cons x xs => simp
            simp only [List.length_append, List.length_drop]
            omega
          have hkey : ¬ (kb ++ e.1.drop ka.length = kb) := by
            intro h0
            rw [h0] at hlen
            omega
          rw [if_pos hmv]
          rw [List.find?_cons_of_neg _ (by simpa using hkey)]
          rw [List.find?_cons_of_neg l (by simpa using hk)]
          exact ih
        · have hkey : e.1 ≠ kb := fun h => hkb (h ▸ List.prefix_rfl)
          rw [if_neg hmv]
          rw [List.find?_cons_of_neg _ (by simpa using hkey)]
          rw [List.find?_cons_of_neg l (by simpa using hk)]
          exact ih

theorem mvList_lookup_src (ka kb : Path) (l : List (Path × Entry))
    (h2 : ¬ kb <+: ka) :
    (mvList ka kb l).find? (fun e => decide (e.1 = ka)) = none := by
  apply List.find?_eq_none.mpr
  intro x hx
  unfold mvList at hx
  obtain ⟨e, he, hxe⟩ := List.mem_map.mp hx
  simp only [decide_eq_true_eq]
  intro hk
  by_cases hmv : ka <+: e.1
  · rw [if_pos hmv] at hxe
    have h1 : kb ++ e.1.drop ka.length = x.1 := congrArg Prod.fst hxe
    exact h2 ((h1.trans hk) ▸ List.prefix_append kb _)
  · rw [if_neg hmv] at hxe
    apply hmv
    have hk' : e.1 = ka := by rw [hxe]; exact hk
    rw [hk']

theorem mvList_lookup_other (ka kb : Path) (l : List (Path × Entry)) (k : Path)
    (hka : ¬ ka <+: k) (hkb : ¬ kb <+: k) :
    (mvList ka kb l).find? (fun e => decide (e.1 = k))
      = l.find? (fun e => decide (e.1 = k)) := by
  induction l with
  | nil => rfl
  | cons e l ih =>
    unfold mvList at ih ⊢
    by_cases hfd : kb <+: e.1
    · have hek : e.1 ≠ k := fun h => hkb (h ▸ hfd)
      rw [List.filter_cons_of_neg (by simpa using hfd)]
      rw [List.find?_cons_of_neg l (by simpa using hek)]
      exact ih
    · rw [List.filter_cons_of_pos (by simpa using hfd), List.map_cons]
      by_cases hmv : ka <+: e.1
      · have hek : e.1 ≠ k := fun h => hka (h ▸ hmv)
        have hkey : (kb ++ e.1.drop ka.length) ≠ k := by
          intro h0
          exact hkb (h0 ▸ List.prefix_append kb _)
        rw [if_pos hmv]
        rw [List.find?_cons_of_neg _ (by simpa using hkey)]
        rw [List.find?_cons_of_neg l (by simpa using hek)]
        exact ih
      · rw [if_neg hmv]
        by_cases hek : e.1 = k
        · rw [List.find?_cons_of_pos _ (by simpa using hek)]
          rw [List.find?_cons_of_pos l (by simpa using hek)]
        · rw [List.find?_cons_of_neg _ (by simpa using hek)]
          rw [List.find?_cons_of_neg l (by simpa using hek)]
          exact ih

/-- The rename performed by the backup branch, on two sibling keys. -/
theorem renameF_ok (fs : FS) (rf : Nat) {q : Path} {ca cb : String}
    (ha : ancRawB fs (q ++ [ca]) = true) (hf : q.length ≤ rf)
    (hsrc : (lookupRaw fs (q ++ [ca])).isSome = true)
    (hne : ca ≠ cb)
    (hcomp : lookupRaw fs (q ++ [cb]) = none
      ∨ (lookupRaw fs (q ++ [ca]) ≠ some Entry.dir
         ∧ lookupRaw fs (q ++ [cb]) ≠ some Entry.dir)) :
    renameF fs rf (q ++ [ca]) (q ++ [cb])
      = Except.ok { fs with entries := mvList (q ++ [ca]) (q ++ [cb]) fs.entries } := by
  unfold renameF
  simp only [List.getLast?_concat, List.dropLast_concat, resolve_parent_raw fs rf ha hf]
  obtain ⟨v, hv⟩ := Option.isSome_iff_exists.mp hsrc
  simp only [hv]
  have hkk : ¬ (q ++ [ca] = q ++ [cb]) := by simp [hne]
  have hpre : ¬ (q ++ [ca] <+: q ++ [cb]) := fun h => hne (concat_pre_concat h)
  rw [if_neg hkk, if_neg hpre]
  cases htv : lookupRaw fs (q ++ [cb]) with
  | none => cases v <;> rfl
  | some e =>
    rcases hcomp with htn | ⟨hsd, htgt⟩
    · rw [htn] at htv
      cases htv
    · cases e with
      | dir => exact absurd htv htgt
      | file i =>
        cases v with
        | dir => exact absurd hv hsd
        | file j => rfl
        | symlink t => rfl
      | symlink t =>
        cases v with
        | dir => exact absurd hv hsd
        | file j => rfl
        | symlink t' => rfl

/-! ## Claim C2 -/

/-- C2 (amended) — Backup rename: executing a `Link` node with
`replace = true` and `backup = true` renames the occupant of `dest` to
the path obtained by replacing `dest`'s extension with the literal `bkp`
(same parent directory `q`, same stem — see `withExtBkp`), silently
overwriting whatever entry sat at that backup name before, and then
creates the symlink to the source at `dest` — provided the backup name
differs from `dest`'s own name, and `fs::rename` can dispose of the
backup-name occupant (the name is free, or neither it nor the occupant
of `dest` is a directory).  The unconditional form of the claim is
false: a `dest` whose name maps to itself under `with_extension("bkp")`
makes the rename a self-no-op and the symlink creation then fails with
EEXIST, and a directory at the backup name makes the rename itself
fail. -/
theorem C2_backup_rename (fs : FS) (rf fe : Nat) (p : Path) {q : Path} {ca : String}
    (ha : ancRawB fs (q ++ [ca]) = true)
    (hf : (q ++ [ca]).length ≤ rf)
    (hocc : (lookupRaw fs (q ++ [ca])).isSome = true)
    (hbn : withExtBkp ca ≠ ca)
    (hbk : lookupRaw fs (q ++ [withExtBkp ca]) = none
      ∨ (lookupRaw fs (q ++ [ca]) ≠ some Entry.dir
         ∧ lookupRaw fs (q ++ [withExtBkp ca]) ≠ some Entry.dir)) :
    ∃ fs', Plan.execute rf (fe + 1) fs (Plan.link p (q ++ [ca]) true true) = Except.ok fs' ∧
      lookupRaw fs' (q ++ [withExtBkp ca]) = lookupRaw fs (q ++ [ca]) ∧
      lookupRaw fs' (q ++ [ca]) = some (Entry.symlink ⟨true, p⟩) := by
  have hql : q.length ≤ rf := by
    simp only [List.length_append, List.length_singleton] at hf
    omega
  have hne : ca ≠ withExtBkp ca := fun h => hbn h.symm
  have hpba : ¬ (q ++ [withExtBkp ca]) <+: (q ++ [ca]) := fun h => hbn (concat_pre_concat h)
  have hrn : renameF fs rf (q ++ [ca]) (q ++ [withExtBkp ca])
      = Except.ok { fs with entries := mvList (q ++ [ca]) (q ++ [withExtBkp ca]) fs.entries } :=
    renameF_ok fs rf ha hql hocc hne hbk
  have hroot : lookupRaw { fs with entries := mvList (q ++ [ca]) (q ++ [withExtBkp ca]) fs.entries }
      (q ++ [withExtBkp ca]) = lookupRaw fs (q ++ [ca]) := by
    unfold lookupRaw
    simp only [mvList_lookup_root (q ++ [ca]) (q ++ [withExtBkp ca]) fs.entries hpba]
    cases fs.entries.find? (fun e => decide (e.1 = q ++ [ca])) <;> simp
  have hsrcgone :
      lookupRaw { fs with entries := mvList (q ++ [ca]) (q ++ [withExtBkp ca]) fs.entries }
        (q ++ [ca]) = none := by
    unfold lookupRaw
    simp only [mvList_lookup_src (q ++ [ca]) (q ++ [withExtBkp ca]) fs.entries hpba]
    rfl
  have hother : ∀ k, ¬ (q ++ [ca]) <+: k → ¬ (q ++ [withExtBkp ca]) <+: k →
      lookupRaw { fs with entries := mvList (q ++ [ca]) (q ++ [withExtBkp ca]) fs.entries } k
        = lookupRaw fs k := by
    intro k h1 h2
    unfold lookupRaw
    simp only [mvList_lookup_other (q ++ [ca]) (q ++ [withExtBkp ca]) fs.entries k h1 h2]
  have hanc₂ :
      ancRawB { fs with entries := mvList (q ++ [ca]) (q ++ [withExtBkp ca]) fs.entries }
        (q ++ [ca]) = true := by
    apply ancRawB_of
    intro r hr hrne hrka
    have hlen := strict_pre_concat_len hr hrka
    have h1 : ¬ (q ++ [ca]) <+: r := by
      intro h
      have := h.length_le
      simp only [List.length_append, List.length_singleton] at this
      omega
    have h2 : ¬ (q ++ [withExtBkp ca]) <+: r := by
      intro h
      have := h.length_le
      simp only [List.length_append, List.length_singleton] at this
      omega
    rw [hother r h1 h2]
    exact ancRawB_spec ha r hr hrne hrka
  have hsl : symlinkF { fs with entries := mvList (q ++ [ca]) (q ++ [withExtBkp ca]) fs.entries }
      rf p (q ++ [ca])
      = Except.ok (insertEntry { fs with entries := mvList (q ++ [ca]) (q ++ [withExtBkp ca]) fs.entries }
          (q ++ [ca]) (Entry.symlink ⟨true, p⟩)) :=
    symlinkF_ok _ rf p hanc₂ hql hsrcgone
  refine ⟨insertEntry { fs with entries := mvList (q ++ [ca]) (q ++ [withExtBkp ca]) fs.entries }
    (q ++ [ca]) (Entry.symlink ⟨true, p⟩), ?_, ?_, ?_⟩
  · rw [execute_link]
    simp only [Bool.and_self, if_true]
    rw [withExtBkpP_concat q ca, hrn]
    simpa using hsl
  · have hkne : (q ++ [withExtBkp ca]) ≠ (q ++ [ca]) := by
      intro h
      apply hbn
      have := List.append_cancel_left h
      simpa using this
    rw [lookupRaw_insert_other _ _ _ _ hkne]
    exact hroot
  · exact lookupRaw_insert_same _ _ _ hsrcgone
/-- Concrete instance for C2: `["home","a.txt"]` holds a file (id 3), a
prior backup (id 9) already sits at `["home","a.bkp"]`. -/
def fsC2 : FS :=
  ⟨[(["home"], Entry.dir), (["home", "a.txt"], Entry.file 3),
    (["home", "a.bkp"], Entry.file 9)], []⟩

theorem C2_witness :
    ∃ fs', Plan.execute 10 1 fsC2 (Plan.link ["srcf"] (["home"] ++ ["a.txt"]) true true)
        = Except.ok fs' ∧
      lookupRaw fs' (["home"] ++ [withExtBkp "a.txt"]) = lookupRaw fsC2 (["home"] ++ ["a.txt"]) ∧
      lookupRaw fs' (["home"] ++ ["a.txt"]) = some (Entry.symlink ⟨true, ["srcf"]⟩) :=
  C2_backup_rename fsC2 10 0 ["srcf"] (by rfl) (by decide) (by rfl) (by decide) (by decide)

/-- Concrete instance refuting the unconditional C2: the destination
file is itself named `a.bkp`, so its backup name equals its own name. -/
def fsC2x : FS :=
  ⟨[(["home"], Entry.dir), (["home", "a.bkp"], Entry.file 4),
    (["s"], Entry.dir), (["s", "a.bkp"], Entry.file 7)], []⟩

/-- C2 counterexample: the claim promises that every
`Link{replace: true, backup: true}` node renames the occupant of `dest`
to the `.bkp` name and then creates the symlink.  For a destination
already named `a.bkp` the builder produces exactly such a node (first
conjunct), but `with_extension("bkp")` maps the name to itself (second
conjunct), so `fs::rename(dest, dest)` is a successful no-op, the
occupant stays in place, and the symlink creation fails because the
path is still occupied: execution errors instead of backing up and
linking (third conjunct). -/
theorem C2_counterexample :
    Plan.new fsC2x 10 true 3 ["s"] ["home"]
      = Except.ok (Plan.noop ["s"] ["home"]
          [Plan.link ["s", "a.bkp"] ["home", "a.bkp"] true true])
    ∧ withExtBkp "a.bkp" = "a.bkp"
    ∧ Plan.execute 10 3 fsC2x
        (Plan.noop ["s"] ["home"] [Plan.link ["s", "a.bkp"] ["home", "a.bkp"] true true])
      = Except.error (ExecErr.occupied ["home", "a.bkp"]) :=
  ⟨rfl, rfl, rfl⟩

/-! ## Claim C3 -/

/-- C3 — Replace without backup: executing a `Link` node with
`replace = true` and `backup = false` first deletes the occupant of
`dest` and then creates the symlink.  A raw directory is removed with its
whole subtree (`eraseTree`, first conjunct).  A regular file is removed
alone (`eraseKey`, second conjunct).  A symlink — of any kind, including
one whose target resolves to a directory — is also removed alone,
because whichever branch `dest.is_dir()` selects, `remove_dir_all`
`lstat`s first and unlinks a symlink without recursing (third conjunct);
the fourth conjunct records that in the symlink case every other key,
including the link target's subtree, is untouched. -/
theorem C3_replace_delete_dispatch (fs : FS) (rf fe : Nat) (p : Path) {q : Path} {c : String}
    (ha : ancRawB fs (q ++ [c]) = true)
    (hf : (q ++ [c]).length ≤ rf)
    {ent : Entry} (he : lookupRaw fs (q ++ [c]) = some ent) :
    (ent = Entry.dir →
      Plan.execute rf (fe + 1) fs (Plan.link p (q ++ [c]) true false)
        = Except.ok (insertEntry (eraseTree fs (q ++ [c])) (q ++ [c]) (Entry.symlink ⟨true, p⟩))) ∧
    (∀ i, ent = Entry.file i →
      Plan.execute rf (fe + 1) fs (Plan.link p (q ++ [c]) true false)
        = Except.ok (insertEntry (eraseKey fs (q ++ [c])) (q ++ [c]) (Entry.symlink ⟨true, p⟩))) ∧
    (∀ t, ent = Entry.symlink t →
      Plan.execute rf (fe + 1) fs (Plan.link p (q ++ [c]) true false)
        = Except.ok (insertEntry (eraseKey fs (q ++ [c])) (q ++ [c]) (Entry.symlink ⟨true, p⟩))) ∧
    (∀ t, ent = Entry.symlink t → ∀ k, k ≠ q ++ [c] →
      lookupRaw (insertEntry (eraseKey fs (q ++ [c])) (q ++ [c]) (Entry.symlink ⟨true, p⟩)) k
        = lookupRaw fs k) := by
  have hql : q.length ≤ rf := by
    simp only [List.length_append, List.length_singleton] at hf
    omega
  have hancK : ancRawB (eraseKey fs (q ++ [c])) (q ++ [c]) = true := by
    unfold eraseKey
    refine ancRawB_filter fs (fun k => decide (k ≠ q ++ [c])) (q ++ [c]) ha ?_
    intro k hk hkne
    simp [hkne]
  have hancT : ancRawB (eraseTree fs (q ++ [c])) (q ++ [c]) = true := by
    unfold eraseTree
    refine ancRawB_filter fs (fun k => decide (¬ (q ++ [c]) <+: k)) (q ++ [c]) ha ?_
    intro k hk hkne
    have := strict_pre_concat_len hk hkne
    simp only [decide_eq_true_eq]
    intro hcon
    have := hcon.length_le
    simp only [List.length_append, List.length_singleton] at this
    omega
  have hfreeK : lookupRaw (eraseKey fs (q ++ [c])) (q ++ [c]) = none := by
    unfold eraseKey
    refine lookupRaw_filter_drop fs (fun k => decide (k ≠ q ++ [c])) (q ++ [c]) ?_
    simp
  have hfreeT : lookupRaw (eraseTree fs (q ++ [c])) (q ++ [c]) = none := by
    unfold eraseTree
    refine lookupRaw_filter_drop fs (fun k => decide (¬ (q ++ [c]) <+: k)) (q ++ [c]) ?_
    simp
  refine ⟨?_, ?_, ?_, ?_⟩
  · intro hdir
    subst hdir
    have hisd : isDir fs rf (q ++ [c]) = true := by
      unfold isDir
      rw [statE_raw_dir fs rf (q ++ [c]) ha he hf]
      simp
    rw [execute_link]
    simp only [Bool.and_false, if_false, if_true, Bool.false_eq_true]
    rw [hisd]
    simp only [if_true]
    rw [removeDirAllF_dir fs rf ha hql he]
    simpa using symlinkF_ok _ rf p hancT hql hfreeT
  · intro i hfi
    subst hfi
    have hisd : isDir fs rf (q ++ [c]) = false := by
      unfold isDir
      rw [statE_raw_file fs rf (q ++ [c]) (by simp) ha i he hf]
      simp
    rw [execute_link]
    simp only [Bool.and_false, if_false, if_true, Bool.false_eq_true]
    rw [hisd]
    simp only [Bool.false_eq_true, if_false]
    rw [removeFileF_ok fs rf ha hql he (by simp)]
    simpa using symlinkF_ok _ rf p hancK hql hfreeK
  · intro t hst
    subst hst
    rw [execute_link]
    simp only [Bool.and_false, if_false, if_true, Bool.false_eq_true]
    cases hisd : isDir fs rf (q ++ [c]) with
    | true =>
      simp only [if_true]
      rw [removeDirAllF_symlink fs rf ha hql he]
      simpa using symlinkF_ok _ rf p hancK hql hfreeK
    | false =>
      simp only [Bool.false_eq_true, if_false]
      rw [removeFileF_ok fs rf ha hql he (by simp)]
      simpa using symlinkF_ok _ rf p hancK hql hfreeK
  · intro t hst k hk
    rw [lookupRaw_insert_other _ _ _ _ hk]
    unfold eraseKey
    refine lookupRaw_filter_keep fs (fun r => decide (r ≠ q ++ [c])) k ?_
    simp [hk]

/-- Concrete instance for C3: `["home","cfg"]` is a symlink whose target
`["tgt"]` is a directory with contents. -/
def fsC3 : FS :=
  ⟨[(["tgt"], Entry.dir), (["tgt", "inner"], Entry.file 5), (["home"], Entry.dir),
    (["home", "cfg"], Entry.symlink ⟨true, ["tgt"]⟩)], []⟩

theorem C3_witness :
    Plan.execute 10 1 fsC3 (Plan.link ["s"] (["home"] ++ ["cfg"]) true false)
      = Except.ok (insertEntry (eraseKey fsC3 (["home"] ++ ["cfg"])) (["home"] ++ ["cfg"])
          (Entry.symlink ⟨true, ["s"]⟩)) ∧
    lookupRaw (insertEntry (eraseKey fsC3 (["home"] ++ ["cfg"])) (["home"] ++ ["cfg"])
        (Entry.symlink ⟨true, ["s"]⟩)) ["tgt", "inner"] = lookupRaw fsC3 ["tgt", "inner"] :=
  ⟨(C3_replace_delete_dispatch fsC3 10 0 ["s"] (by rfl) (by decide) (by rfl)).2.2.1
      ⟨true, ["tgt"]⟩ rfl,
   (C3_replace_delete_dispatch fsC3 10 0 ["s"] (by rfl) (by decide) (by rfl)).2.2.2
      ⟨true, ["tgt"]⟩ rfl ["tgt", "inner"] (by decide)⟩

/-! ## Claim C10 -/

/-- Concrete instance for C10: two source files `a.txt` (id 1) and
`a.conf` (id 2) whose destinations are both occupied (ids 11 and 12). -/
def fsC10 : FS :=
  ⟨[(["src"], Entry.dir), (["src", "a.txt"], Entry.file 1), (["src", "a.conf"], Entry.file 2),
    (["home"], Entry.dir), (["home", "a.txt"], Entry.file 11),
    (["home", "a.conf"], Entry.file 12)], []⟩

/-- The state after executing the freshly built plan for `fsC10`. -/
def fsC10' : FS :=
  ⟨[(["src"], Entry.dir), (["src", "a.txt"], Entry.file 1), (["src", "a.conf"], Entry.file 2),
    (["home"], Entry.dir), (["home", "a.bkp"], Entry.file 12),
    (["home", "a.txt"], Entry.symlink ⟨true, ["src", "a.txt"]⟩),
    (["home", "a.conf"], Entry.symlink ⟨true, ["src", "a.conf"]⟩)], []⟩

/-- C10 — Backup-name collision: the two distinct names `a.txt` and
`a.conf` map to the same backup name `a.bkp` (first two conjuncts), so
when both destinations are replaced with backup enabled in one
execution, the later rename silently overwrites the earlier backup: the
final state keeps only the second file's content (id 12) at
`["home","a.bkp"]`, and the first occupant's content (id 11) survives
nowhere (last conjunct); both backups also lost their extensions. -/
theorem C10_backup_name_collision :
    withExtBkp "a.txt" = "a.bkp"
    ∧ withExtBkp "a.conf" = "a.bkp"
    ∧ ("a.txt" : String) ≠ "a.conf"
    ∧ Plan.new fsC10 10 true 2 ["src"] ["home"]
        = Except.ok (Plan.noop ["src"] ["home"]
            [Plan.link ["src", "a.txt"] ["home", "a.txt"] true true,
             Plan.link ["src", "a.conf"] ["home", "a.conf"] true true])
    ∧ Plan.execute 10 3 fsC10
        (Plan.noop ["src"] ["home"]
          [Plan.link ["src", "a.txt"] ["home", "a.txt"] true true,
           Plan.link ["src", "a.conf"] ["home", "a.conf"] true true])
        = Except.ok fsC10'
    ∧ lookupRaw fsC10' ["home", "a.bkp"] = some (Entry.file 12)
    ∧ fsC10'.entries.all (fun e => decide (e.2 ≠ Entry.file 11)) = true := by
  exact ⟨rfl, rfl, by decide, rfl, rfl, rfl, by decide⟩

/-! ## Claim C1 -/

/-- Concrete instance for C1: a source directory containing a
subdirectory with one file, and an empty destination directory. -/
def fsC1 : FS :=
  ⟨[(["s"], Entry.dir), (["s", "sub"], Entry.dir), (["s", "sub", "f"], Entry.file 0),
    (["d"], Entry.dir)], []⟩

/-- The destination state after the first successful execution: the
subdirectory was linked as a unit. -/
def fsC1' : FS :=
  ⟨[(["s"], Entry.dir), (["s", "sub"], Entry.dir), (["s", "sub", "f"], Entry.file 0),
    (["d"], Entry.dir), (["d", "sub"], Entry.symlink ⟨true, ["s", "sub"]⟩)], []⟩

/-- C1 counterexample: build-then-execute is not idempotent.  The first
plan links the source subdirectory `["s","sub"]` as one unit (first
conjunct); executing it succeeds and produces `fsC1'` (second conjunct).
Rebuilding with the same roots and backup flag now sees `["d","sub"]` as
an existing directory (through the fresh symlink) and descends into it,
finding the file `f` reachable at `["d","sub","f"]` but not held by a
symlink — so the second plan contains `Link{replace: true}` for it
(third conjunct) and is not empty (fourth conjunct), contradicting the
claimed idempotence. -/
theorem C1_counterexample :
    Plan.new fsC1 10 false 5 ["s"] ["d"]
      = Except.ok (Plan.noop ["s"] ["d"] [Plan.link ["s", "sub"] ["d", "sub"] false false])
    ∧ Plan.execute 10 5 fsC1
        (Plan.noop ["s"] ["d"] [Plan.link ["s", "sub"] ["d", "sub"] false false])
      = Except.ok fsC1'
    ∧ Plan.new fsC1' 10 false 5 ["s"] ["d"]
      = Except.ok (Plan.noop ["s"] ["d"]
          [Plan.noop ["s", "sub"] ["d", "sub"]
            [Plan.link ["s", "sub", "f"] ["d", "sub", "f"] true false]])
    ∧ (Plan.noop ["s"] ["d"]
        [Plan.noop ["s", "sub"] ["d", "sub"]
          [Plan.link ["s", "sub", "f"] ["d", "sub", "f"] true false]]).is_empty = false := by
  refine ⟨rfl, rfl, rfl, ?_⟩
  simp [Plan.is_empty]

/-! ### Plan predicates for the amended idempotence theorem

All plan-recursive predicates take an explicit structural fuel, kept in
lockstep: a node checked at fuel `F + 1` checks its children at `F`, and
fuel `0` is always false (`TouchB` is conservatively true). -/

/-- The keys an execution of the plan may touch: everything at or below
a `Link` destination. -/
def TouchB : Nat → Plan → Path → Bool
  | 0, _, _ => true
  | _ + 1, Plan.link _ d _ _, k => decide (d <+: k)
  | F + 1, Plan.noop _ _ ch, k => ch.any (fun c => TouchB F c k)

/-- Execution-relevant structure: raw directory chains above every
destination, no backup renames (`!bk || !rep`), children destinations
strictly below the node's own and pairwise prefix-incomparable. -/
def pwIncompB : List Path → Bool
  | [] => true
  | x :: xs => xs.all (fun y => decide (¬ x <+: y) && decide (¬ y <+: x)) && pwIncompB xs

def shapeLiteB (fs : FS) (rf : Nat) : Nat → Plan → Bool
  | 0, _ => false
  | _ + 1, Plan.link _ d rep bk =>
      ancRawB fs d && !(decide (d = [])) && decide (d.length ≤ rf) && (!bk || !rep)
  | F + 1, Plan.noop _ d ch =>
      ancRawB fs d &&
      ch.all (fun c => decide (d <+: c.destOf) && decide (c.destOf ≠ d) && shapeLiteB fs rf F c) &&
      pwIncompB (ch.map Plan.destOf)

/-- Facts established by a successful execution, read in the final
state `fs'`: every `Link` destination holds the fresh absolute symlink
to its source, every `Noop` destination is unchanged from `fs`, and raw
ancestor chains survive. -/
def postRelB (fs fs' : FS) : Nat → Plan → Bool
  | 0, _ => false
  | _ + 1, Plan.link p d _ _ =>
      (lookupRaw fs' d == some (Entry.symlink ⟨true, p⟩)) && ancRawB fs' d
  | F + 1, Plan.noop _ d ch =>
      (lookupRaw fs' d == lookupRaw fs d) && ancRawB fs' d &&
      ch.all (fun c => postRelB fs fs' F c)

/-- Build-time source-side structure of a plan (stated in the build
state): `Link` and childless `Noop` nodes sit on raw regular files,
directory `Noop` nodes sit on raw readable directories whose children
correspond one-to-one, in order, to the `read_dir` listing; a childless
file `Noop` destination already holds the exact absolute link. -/
def nodeOkB (fs : FS) (rf : Nat) : Nat → Plan → Bool
  | 0, _ => false
  | _ + 1, Plan.link p d _ _ =>
      (match lookupRaw fs p with
       | some (Entry.file _) => true
       | _ => false) &&
      ancRawB fs p && !(decide (p = [])) && decide (p.length ≤ rf) &&
      !(decide (d = [])) && decide (d.length ≤ rf)
  | F + 1, Plan.noop p d ch =>
      match lookupRaw fs p with
      | some (Entry.file _) =>
          ch.isEmpty && (lookupRaw fs d == some (Entry.symlink ⟨true, p⟩)) &&
          ancRawB fs p && !(decide (p = [])) && decide (p.length ≤ rf) &&
          !(decide (d = [])) && decide (d.length ≤ rf)
      | some Entry.dir =>
          (lookupRaw fs d == some Entry.dir) &&
          ancRawB fs p && !(decide (p ∈ fs.unreadable)) &&
          decide (p.length ≤ rf) && decide (d.length ≤ rf) &&
          decide (ch.map Plan.pathOf = (childNames fs p).map (fun n => p ++ [n])) &&
          decide (ch.map Plan.destOf = (childNames fs p).map (fun n => d ++ [n])) &&
          ch.all (fun c => nodeOkB fs rf F c)
      | _ => false

theorem is_empty_noop (p d : Path) (ch : List Plan) :
    (Plan.noop p d ch).is_empty = ch.all (fun c => c.is_empty) := by
  induction ch with
  | nil => simp [Plan.is_empty]
  | cons c cs ih => simp [Plan.is_empty, ih, List.all_cons]

/-- Every touched key extends the node's own destination. -/
theorem touch_le (fs : FS) (rf : Nat) : ∀ (F : Nat) (P : Plan) (k : Path),
    shapeLiteB fs rf F P = true → TouchB F P k = true → P.destOf <+: k := by
  intro F
  induction F with
  | zero => intro P k h; simp [shapeLiteB] at h
  | succ F ih =>
    intro P k h ht
    cases P with
    | link p d rep bk =>
      simp only [TouchB, decide_eq_true_eq] at ht
      exact ht
    | noop p d ch =>
      simp only [TouchB, List.any_eq_true] at ht
      obtain ⟨c, hc, htc⟩ := ht
      simp only [shapeLiteB, Bool.and_eq_true, List.all_eq_true] at h
      have h1 := h.1.2 c hc
      simp only [Bool.and_eq_true, decide_eq_true_eq] at h1
      have := ih c k h1.2 htc
      exact List.IsPrefix.trans h1.1.1 this

/-- Keys comparable to a prefix-incomparable sibling destination are
never touched. -/
theorem touch_disjoint (fs : FS) (rf : Nat) (F : Nat) (P : Plan) (w k : Path)
    (hs : shapeLiteB fs rf F P = true)
    (h1 : ¬ P.destOf <+: w) (h2 : ¬ w <+: P.destOf)
    (hz : k <+: w ∨ w <+: k) : TouchB F P k = false := by
  cases ht : TouchB F P k with
  | false => rfl
  | true =>
    exfalso
    have hle := touch_le fs rf F P k hs ht
    rcases hz with hkw | hwk
    · exact h1 (hle.trans hkw)
    · rcases prefix_comparable hle hwk with h | h
      · exact h1 h
      · exact h2 h

/-- A directory `Noop` node never touches its own destination or
anything at most as long as it. -/
theorem noop_not_touch_shallow (fs : FS) (rf : Nat) (F : Nat) (p d : Path) (ch : List Plan)
    (hs : shapeLiteB fs rf (F + 1) (Plan.noop p d ch) = true)
    (k : Path) (hk : k.length ≤ d.length) : TouchB (F + 1) (Plan.noop p d ch) k = false := by
  cases ht : TouchB (F + 1) (Plan.noop p d ch) k with
  | false => rfl
  | true =>
    exfalso
    simp only [TouchB, List.any_eq_true] at ht
    obtain ⟨c, hc, htc⟩ := ht
    simp only [shapeLiteB, Bool.and_eq_true, List.all_eq_true] at hs
    have h1 := hs.1.2 c hc
    simp only [Bool.and_eq_true, decide_eq_true_eq] at h1
    have hlek := touch_le fs rf F c k h1.2 htc
    have hdlt : d.length < c.destOf.length :=
      lt_of_le_of_ne h1.1.1.length_le
        (fun hl => h1.1.2 (List.IsPrefix.eq_of_length h1.1.1 hl).symm)
    have := hlek.length_le
    omega

theorem ancRawB_congr {fs₁ fs₂ : FS} {p : Path}
    (h : ∀ r, r <+: p → r ≠ [] → r ≠ p → lookupRaw fs₂ r = lookupRaw fs₁ r)
    (ha : ancRawB fs₁ p = true) : ancRawB fs₂ p = true :=
  ancRawB_of (fun r hr hne hnp => (h r hr hne hnp).trans (ancRawB_spec ha r hr hne hnp))

/-- shapeLiteB only reads keys comparable to the node's destination. -/
theorem shapeLite_congr {rf : Nat} : ∀ (F : Nat) (P : Plan) (fs₁ fs₂ : FS),
    (∀ k, (k <+: P.destOf ∨ P.destOf <+: k) → lookupRaw fs₂ k = lookupRaw fs₁ k) →
    shapeLiteB fs₁ rf F P = true → shapeLiteB fs₂ rf F P = true := by
  intro F
  induction F with
  | zero => intro P fs₁ fs₂ _ h; simp [shapeLiteB] at h
  | succ F ih =>
    intro P fs₁ fs₂ hz h
    cases P with
    | link p d rep bk =>
      simp only [shapeLiteB, Bool.and_eq_true] at h ⊢
      refine ⟨⟨⟨?_, h.1.1.2⟩, h.1.2⟩, h.2⟩
      exact ancRawB_congr (fun r hr _ _ => hz r (Or.inl (hr.trans List.prefix_rfl))) h.1.1.1
    | noop p d ch =>
      simp only [shapeLiteB, Bool.and_eq_true, List.all_eq_true] at h ⊢
      refine ⟨⟨?_, ?_⟩, h.2⟩
      · exact ancRawB_congr (fun r hr _ _ => hz r (Or.inl hr)) h.1.1
      · intro c hc
        have h1 := h.1.2 c hc
        simp only [Bool.and_eq_true, decide_eq_true_eq] at h1 ⊢
        refine ⟨⟨h1.1.1, h1.1.2⟩, ?_⟩
        refine ih c fs₁ fs₂ ?_ h1.2
        intro k hk
        apply hz
        rcases hk with hk | hk
        · rcases prefix_comparable hk h1.1.1 with h' | h'
          · exact Or.inl h'
          · exact Or.inr h'
        · exact Or.inr (h1.1.1.trans hk)

/-- postRelB reads the final state and the base state only at keys
comparable to the node's destination. -/
theorem postRel_congr {rf : Nat} (fs₀ : FS) : ∀ (F : Nat) (P : Plan) (fsb₁ fsb₂ fsp₁ fsp₂ : FS),
    shapeLiteB fs₀ rf F P = true →
    (∀ k, (k <+: P.destOf ∨ P.destOf <+: k) → lookupRaw fsb₂ k = lookupRaw fsb₁ k) →
    (∀ k, (k <+: P.destOf ∨ P.destOf <+: k) → lookupRaw fsp₂ k = lookupRaw fsp₁ k) →
    postRelB fsb₁ fsp₁ F P = true → postRelB fsb₂ fsp₂ F P = true := by
  intro F
  induction F with
  | zero => intro P _ _ _ _ _ _ _ h; simp [postRelB] at h
  | succ F ih =>
    intro P fsb₁ fsb₂ fsp₁ fsp₂ hs hzb hzp h
    cases P with
    | link p d rep bk =>
      simp only [postRelB, Bool.and_eq_true, beq_iff_eq] at h ⊢
      refine ⟨?_, ?_⟩
      · rw [hzp d (Or.inl List.prefix_rfl)]
        exact h.1
      · exact ancRawB_congr (fun r hr _ _ => hzp r (Or.inl (hr.trans List.prefix_rfl))) h.2
    | noop p d ch =>
      simp only [postRelB, Bool.and_eq_true, beq_iff_eq, List.all_eq_true] at h ⊢
      simp only [shapeLiteB, Bool.and_eq_true, List.all_eq_true] at hs
      refine ⟨⟨?_, ?_⟩, ?_⟩
      · rw [hzp d (Or.inl List.prefix_rfl), hzb d (Or.inl List.prefix_rfl)]
        exact h.1.1
      · exact ancRawB_congr (fun r hr _ _ => hzp r (Or.inl hr)) h.1.2
      · intro c hc
        have h1 := hs.1.2 c hc
        simp only [Bool.and_eq_true, decide_eq_true_eq] at h1
        have hsub : ∀ k, (k <+: c.destOf ∨ c.destOf <+: k) → (k <+: d ∨ d <+: k) := by
          intro k hk
          rcases hk with hk | hk
          · rcases prefix_comparable hk h1.1.1 with h' | h'
            · exact Or.inl h'
            · exact Or.inr h'
          · exact Or.inr (h1.1.1.trans hk)
        exact ih c fsb₁ fsb₂ fsp₁ fsp₂ h1.2
          (fun k hk => hzb k (hsub k hk)) (fun k hk => hzp k (hsub k hk)) (h.2 c hc)

theorem filter_subsume (l : List (Path × Entry)) (qf rg : Path × Entry → Bool)
    (h : ∀ e, qf e = true → rg e = true) : (l.filter rg).filter qf = l.filter qf := by
  induction l with
  | nil => rfl
  | cons e l ih =>
    cases hq : qf e with
    | true =>
      rw [List.filter_cons_of_pos (h e hq)]
      rw [List.filter_cons_of_pos hq, List.filter_cons_of_pos hq, ih]
    | false =>
      cases hr : rg e with
      | true =>
        rw [List.filter_cons_of_pos hr]
        rw [List.filter_cons_of_neg (by simp [hq]), List.filter_cons_of_neg (by simp [hq]), ih]
      | false =>
        rw [List.filter_cons_of_neg (by simp [hr]), List.filter_cons_of_neg (by simp [hq]), ih]

/-! ### Inversion of the execution primitives over raw ancestor chains -/

theorem symlinkF_eq (fs : FS) (rf : Nat) (src : Path) {q : Path} {c : String}
    (ha : ancRawB fs (q ++ [c]) = true) (hf : q.length ≤ rf) :
    symlinkF fs rf src (q ++ [c])
      = if (lookupRaw fs (q ++ [c])).isSome then Except.error (ExecErr.occupied (q ++ [c]))
        else Except.ok (insertEntry fs (q ++ [c]) (Entry.symlink ⟨true, src⟩)) := by
  unfold symlinkF
  rw [List.getLast?_concat, List.dropLast_concat, resolve_parent_raw fs rf ha hf]

theorem symlinkF_ok_inv (fs : FS) (rf : Nat) (src : Path) {q : Path} {c : String} {fs' : FS}
    (ha : ancRawB fs (q ++ [c]) = true) (hf : q.length ≤ rf)
    (h : symlinkF fs rf src (q ++ [c]) = Except.ok fs') :
    lookupRaw fs (q ++ [c]) = none
      ∧ fs' = insertEntry fs (q ++ [c]) (Entry.symlink ⟨true, src⟩) := by
  rw [symlinkF_eq fs rf src ha hf] at h
  cases hl : lookupRaw fs (q ++ [c]) with
  | some e => rw [hl] at h; simp at h
  | none =>
    rw [hl] at h
    simp at h
    exact ⟨rfl, h.symm⟩

theorem removeFileF_eq (fs : FS) (rf : Nat) {q : Path} {c : String}
    (ha : ancRawB fs (q ++ [c]) = true) (hf : q.length ≤ rf) :
    removeFileF fs rf (q ++ [c])
      = match lookupRaw fs (q ++ [c]) with
        | none => Except.error (ExecErr.io (q ++ [c]))
        | some Entry.dir => Except.error (ExecErr.io (q ++ [c]))
        | some _ => Except.ok (eraseKey fs (q ++ [c])) := by
  unfold removeFileF
  rw [List.getLast?_concat, List.dropLast_concat, resolve_parent_raw fs rf ha hf]

theorem removeFileF_ok_inv (fs : FS) (rf : Nat) {q : Path} {c : String} {fs₁ : FS}
    (ha : ancRawB fs (q ++ [c]) = true) (hf : q.length ≤ rf)
    (h : removeFileF fs rf (q ++ [c]) = Except.ok fs₁) : fs₁ = eraseKey fs (q ++ [c]) := by
  rw [removeFileF_eq fs rf ha hf] at h
  cases hl : lookupRaw fs (q ++ [c]) with
  | none => rw [hl] at h; simp at h
  | some e =>
    rw [hl] at h
    cases e with
    | dir => simp at h
    | file i => simp at h; exact h.symm
    | symlink t => simp at h; exact h.symm

theorem removeDirAllF_eq (fs : FS) (rf : Nat) {q : Path} {c : String}
    (ha : ancRawB fs (q ++ [c]) = true) (hf : q.length ≤ rf) :
    removeDirAllF fs rf (q ++ [c])
      = match lookupRaw fs (q ++ [c]) with
        | none => Except.error (ExecErr.io (q ++ [c]))
        | some (Entry.symlink _) => Except.ok (eraseKey fs (q ++ [c]))
        | some Entry.dir => Except.ok (eraseTree fs (q ++ [c]))
        | some (Entry.file _) => Except.error (ExecErr.io (q ++ [c])) := by
  unfold removeDirAllF
  rw [List.getLast?_concat, List.dropLast_concat, resolve_parent_raw fs rf ha hf]

theorem removeDirAllF_ok_inv (fs : FS) (rf : Nat) {q : Path} {c : String} {fs₁ : FS}
    (ha : ancRawB fs (q ++ [c]) = true) (hf : q.length ≤ rf)
    (h : removeDirAllF fs rf (q ++ [c]) = Except.ok fs₁) :
    fs₁ = eraseKey fs (q ++ [c]) ∨ fs₁ = eraseTree fs (q ++ [c]) := by
  rw [removeDirAllF_eq fs rf ha hf] at h
  cases hl : lookupRaw fs (q ++ [c]) with
  | none => rw [hl] at h; simp at h
  | some e =>
    rw [hl] at h
    cases e with
    | dir => simp at h; exact Or.inr h.symm
    | file i => simp at h
    | symlink t => simp at h; exact Or.inl h.symm

/-- Common conclusion of the `Link` case of `exec_effect`: starting from
any state obtained from `fs` by dropping only keys at or below the link
destination, a successful symlink creation yields the three
postconditions. -/
theorem link_case_conclude (fs : FS) (rf F : Nat) (p : Path) (rep bk : Bool)
    (q : Path) (c : String) (kp : Path → Bool) (fs₁ fs' : FS)
    (hfs₁ : fs₁ = { fs with entries := fs.entries.filter (fun e => kp e.1) })
    (hkp : ∀ k, kp k = false → (q ++ [c]) <+: k)
    (hanc : ancRawB fs (q ++ [c]) = true) (hqf : q.length ≤ rf)
    (hsym : symlinkF fs₁ rf p (q ++ [c]) = Except.ok fs') :
    fs'.unreadable = fs.unreadable ∧
    fs'.entries.filter (fun e => !(TouchB (F + 1) (Plan.link p (q ++ [c]) rep bk) e.1))
      = fs.entries.filter (fun e => !(TouchB (F + 1) (Plan.link p (q ++ [c]) rep bk) e.1)) ∧
    postRelB fs fs' (F + 1) (Plan.link p (q ++ [c]) rep bk) = true := by
  subst hfs₁
  have hkpre : ∀ r, r <+: q ++ [c] → r ≠ q ++ [c] → kp r = true := by
    intro r hr hne
    cases hkk : kp r with
    | true => rfl
    | false =>
      exfalso
      have h1 := (hkp r hkk).length_le
      have h2 := strict_pre_concat_len hr hne
      simp [List.length_append] at h1
      omega
  have hanc₁ : ancRawB { fs with entries := fs.entries.filter (fun e => kp e.1) }
      (q ++ [c]) = true := by
    refine ancRawB_filter fs kp (q ++ [c]) hanc ?_
    intro k hk hne
    exact hkpre k hk hne
  obtain ⟨hnone, hfseq⟩ := symlinkF_ok_inv _ rf p hanc₁ hqf hsym
  subst hfseq
  refine ⟨rfl, ?_, ?_⟩
  · simp only [TouchB, insertEntry]
    rw [List.filter_append]
    have hsing : List.filter (fun e => !decide ((q ++ [c]) <+: e.1))
        [(q ++ [c], Entry.symlink ⟨true, p⟩)] = [] := by
      have hdec : decide ((q ++ [c]) <+: (q ++ [c])) = true := decide_eq_true List.prefix_rfl
      simp [hdec]
    rw [hsing, List.append_nil]
    refine filter_subsume fs.entries (fun e => !decide ((q ++ [c]) <+: e.1))
      (fun e => kp e.1) ?_
    intro e he
    cases hkk : kp e.1 with
    | true => exact hkk
    | false =>
      exfalso
      have := hkp e.1 hkk
      simp [decide_eq_true this] at he
  · have hlook : lookupRaw (insertEntry { fs with entries := fs.entries.filter (fun e => kp e.1) }
        (q ++ [c]) (Entry.symlink ⟨true, p⟩)) (q ++ [c]) = some (Entry.symlink ⟨true, p⟩) :=
      lookupRaw_insert_same _ _ _ hnone
    have hanc' : ancRawB (insertEntry { fs with entries := fs.entries.filter (fun e => kp e.1) }
        (q ++ [c]) (Entry.symlink ⟨true, p⟩)) (q ++ [c]) = true := by
      refine ancRawB_congr (fun r hr hrne hrnp => ?_) hanc
      rw [lookupRaw_insert_other _ _ _ _ hrnp]
      exact lookupRaw_filter_keep fs kp r (hkpre r hr hrnp)
    simp only [postRelB, Bool.and_eq_true, beq_iff_eq]
    exact ⟨hlook, hanc'⟩

/-- Sequential execution of prefix-incomparable siblings: each child's
effect is confined to its own destination subtree, so the effects
compose, each child's postcondition survives the later siblings, and
later siblings still find their shape intact. -/
theorem exec_children_effect (rf fe F : Nat)
    (IH : ∀ (P : Plan) (fs fs' : FS), shapeLiteB fs rf F P = true →
      Plan.execute rf fe fs P = Except.ok fs' →
      fs'.unreadable = fs.unreadable ∧
      fs'.entries.filter (fun e => !(TouchB F P e.1))
        = fs.entries.filter (fun e => !(TouchB F P e.1)) ∧
      postRelB fs fs' F P = true) :
    ∀ (cs : List Plan) (fs fs' : FS),
      (∀ c ∈ cs, shapeLiteB fs rf F c = true) →
      pwIncompB (cs.map Plan.destOf) = true →
      seqExec (fun s c => Plan.execute rf fe s c) cs fs = Except.ok fs' →
      fs'.unreadable = fs.unreadable ∧
      fs'.entries.filter (fun e => !(cs.any (fun c => TouchB F c e.1)))
        = fs.entries.filter (fun e => !(cs.any (fun c => TouchB F c e.1))) ∧
      ∀ c ∈ cs, postRelB fs fs' F c = true := by
  intro cs
  induction cs with
  | nil =>
    intro fs fs' _ _ hex
    rw [seqExec_nil] at hex
    cases hex
    exact ⟨rfl, rfl, fun c hc => absurd hc (List.not_mem_nil c)⟩
  | cons c cs ihl =>
    intro fs fs' hshape hpw hex
    rw [seqExec_cons] at hex
    cases h1 : Plan.execute rf fe fs c with
    | error e => rw [h1] at hex; simp [Except.bind] at hex
    | ok fs₁ =>
      rw [h1] at hex
      have hex2 : seqExec (fun s c => Plan.execute rf fe s c) cs fs₁ = Except.ok fs' := hex
      have hsc : shapeLiteB fs rf F c = true := hshape c (List.mem_cons_self c cs)
      obtain ⟨hu1, hfil1, hpost1⟩ := IH c fs fs₁ hsc h1
      have hpwd : ∀ c' ∈ cs, (¬ c.destOf <+: c'.destOf) ∧ (¬ c'.destOf <+: c.destOf) := by
        intro c' hc'
        have hpw' : pwIncompB (c.destOf :: cs.map Plan.destOf) = true := by simpa using hpw
        simp only [pwIncompB, Bool.and_eq_true, List.all_eq_true] at hpw'
        have h2 := hpw'.1 c'.destOf (List.mem_map_of_mem Plan.destOf hc')
        simp only [Bool.and_eq_true, decide_eq_true_eq] at h2
        exact h2
      have hpwtail : pwIncompB (cs.map Plan.destOf) = true := by
        have hpw' : pwIncompB (c.destOf :: cs.map Plan.destOf) = true := by simpa using hpw
        simp only [pwIncompB, Bool.and_eq_true] at hpw'
        exact hpw'.2
      have hkey1 : ∀ k, TouchB F c k = false → lookupRaw fs₁ k = lookupRaw fs k := by
        intro k hk
        exact lookupRaw_of_filter_eq (fun k => !(TouchB F c k)) hfil1 k (by simp [hk])
      have hshape₁ : ∀ c' ∈ cs, shapeLiteB fs₁ rf F c' = true := by
        intro c' hc'
        refine shapeLite_congr F c' fs fs₁ ?_ (hshape c' (List.mem_cons_of_mem c hc'))
        intro k hk
        exact hkey1 k (touch_disjoint fs rf F c c'.destOf k hsc
          (hpwd c' hc').1 (hpwd c' hc').2 hk)
      obtain ⟨hu2, hfil2, hpost2⟩ := ihl fs₁ fs' hshape₁ hpwtail hex2
      have hsub1 : ∀ e : Path × Entry,
          (!((c :: cs).any (fun c0 => TouchB F c0 e.1))) = true → (!(TouchB F c e.1)) = true := by
        intro e he
        simp only [List.any_cons, Bool.not_eq_true', Bool.or_eq_false_iff] at he
        simp only [Bool.not_eq_true']
        exact he.1
      have hsub2 : ∀ e : Path × Entry,
          (!((c :: cs).any (fun c0 => TouchB F c0 e.1))) = true →
          (!(cs.any (fun c0 => TouchB F c0 e.1))) = true := by
        intro e he
        simp only [List.any_cons, Bool.not_eq_true', Bool.or_eq_false_iff] at he
        simp only [Bool.not_eq_true']
        exact he.2
      refine ⟨hu2.trans hu1, ?_, ?_⟩
      · calc fs'.entries.filter (fun e => !((c :: cs).any (fun c0 => TouchB F c0 e.1)))
            = (fs'.entries.filter (fun e => !(cs.any (fun c0 => TouchB F c0 e.1)))).filter
                (fun e => !((c :: cs).any (fun c0 => TouchB F c0 e.1))) :=
              (filter_subsume _ _ _ hsub2).symm
          _ = (fs₁.entries.filter (fun e => !(cs.any (fun c0 => TouchB F c0 e.1)))).filter
                (fun e => !((c :: cs).any (fun c0 => TouchB F c0 e.1))) := by rw [hfil2]
          _ = fs₁.entries.filter (fun e => !((c :: cs).any (fun c0 => TouchB F c0 e.1))) :=
              filter_subsume _ _ _ hsub2
          _ = (fs₁.entries.filter (fun e => !(TouchB F c e.1))).filter
                (fun e => !((c :: cs).any (fun c0 => TouchB F c0 e.1))) :=
              (filter_subsume _ _ _ hsub1).symm
          _ = (fs.entries.filter (fun e => !(TouchB F c e.1))).filter
                (fun e => !((c :: cs).any (fun c0 => TouchB F c0 e.1))) := by rw [hfil1]
          _ = fs.entries.filter (fun e => !((c :: cs).any (fun c0 => TouchB F c0 e.1))) :=
              filter_subsume _ _ _ hsub1
      · intro c' hc'
        rcases List.mem_cons.mp hc' with rfl | hc''
        · refine postRel_congr fs F c' fs fs fs₁ fs' hsc (fun k _ => rfl) ?_ hpost1
          intro k hk
          have hall : (cs.any (fun c0 => TouchB F c0 k)) = false := by
            cases hca : (cs.any (fun c0 => TouchB F c0 k)) with
            | false => rfl
            | true =>
              exfalso
              obtain ⟨c0, hc0, ht0⟩ := List.any_eq_true.mp hca
              have hd0 := hpwd c0 hc0
              have hne := touch_disjoint fs rf F c0 c'.destOf k
                (hshape c0 (List.mem_cons_of_mem c' hc0)) hd0.2 hd0.1 hk
              rw [hne] at ht0
              exact Bool.false_ne_true ht0
          exact lookupRaw_of_filter_eq (fun k => !(cs.any (fun c0 => TouchB F c0 k)))
            hfil2 k (by simp [hall])
        · refine postRel_congr fs F c' fs₁ fs fs' fs'
            (hshape c' (List.mem_cons_of_mem c hc'')) ?_ (fun k _ => rfl) (hpost2 c' hc'')
          intro k hk
          exact (hkey1 k (touch_disjoint fs rf F c c'.destOf k hsc
            (hpwd c' hc'').1 (hpwd c' hc'').2 hk)).symm

/-- The effect of a successful execution of a well-shaped plan: the set
of unreadable directories is unchanged, entries outside the touched
zone (destination subtrees of `Link` nodes) are untouched, and the
postcondition `postRelB` holds. -/
theorem exec_effect (rf : Nat) : ∀ (fe F : Nat) (P : Plan) (fs fs' : FS),
    shapeLiteB fs rf F P = true →
    Plan.execute rf fe fs P = Except.ok fs' →
    fs'.unreadable = fs.unreadable ∧
    fs'.entries.filter (fun e => !(TouchB F P e.1))
      = fs.entries.filter (fun e => !(TouchB F P e.1)) ∧
    postRelB fs fs' F P = true := by
  intro fe
  induction fe with
  | zero => intro F P fs fs' _ hexec; simp [Plan.execute] at hexec
  | succ fe ih =>
    intro F P fs fs' hs hexec
    cases F with
    | zero => simp [shapeLiteB] at hs
    | succ F =>
      cases P with
      | link p d rep bk =>
        simp only [shapeLiteB, Bool.and_eq_true, Bool.not_eq_true',
          decide_eq_false_iff_not, decide_eq_true_eq, Bool.or_eq_true] at hs
        obtain ⟨⟨⟨hanc, hdne⟩, hdlen⟩, hnb⟩ := hs
        obtain ⟨q, c, rfl⟩ : ∃ q c, d = q ++ [c] := by
          rcases concat_cases d with h | ⟨q, c, h⟩
          · exact absurd h hdne
          · exact ⟨q, c, h⟩
        have hqf : q.length ≤ rf := by
          simp [List.length_append] at hdlen
          omega
        rw [execute_link] at hexec
        have hrb : (rep && bk) = false := by rcases hnb with h | h <;> simp [h]
        rw [hrb] at hexec
        simp at hexec
        cases hrep : rep with
        | false =>
          rw [hrep] at hexec
          simp [Except.bind] at hexec
          refine link_case_conclude fs rf F p rep bk q c (fun _ => true) fs fs' ?_ ?_ hanc hqf hexec
          · simp
          · intro k hk
            simp at hk
        | true =>
          rw [hrep] at hexec
          simp at hexec
          by_cases hd : isDir fs rf (q ++ [c]) = true
          · rw [if_pos hd] at hexec
            cases hmid : removeDirAllF fs rf (q ++ [c]) with
            | error e => rw [hmid] at hexec; simp [Except.bind] at hexec
            | ok fs₁ =>
              rw [hmid] at hexec
              have hexec' : symlinkF fs₁ rf p (q ++ [c]) = Except.ok fs' := hexec
              rcases removeDirAllF_ok_inv fs rf hanc hqf hmid with h1 | h1
              · refine link_case_conclude fs rf F p rep bk q c
                  (fun k => decide (k ≠ q ++ [c])) fs₁ fs' ?_ ?_ hanc hqf hexec'
                · rw [h1]; rfl
                · intro k hk
                  simp only [decide_eq_false_iff_not, not_not] at hk
                  rw [hk]
              · refine link_case_conclude fs rf F p rep bk q c
                  (fun k => decide (¬ (q ++ [c]) <+: k)) fs₁ fs' ?_ ?_ hanc hqf hexec'
                · rw [h1]; rfl
                · intro k hk
                  simp only [decide_eq_false_iff_not, not_not] at hk
                  exact hk
          · rw [if_neg hd] at hexec
            cases hmid : removeFileF fs rf (q ++ [c]) with
            | error e => rw [hmid] at hexec; simp [Except.bind] at hexec
            | ok fs₁ =>
              rw [hmid] at hexec
              have hexec' : symlinkF fs₁ rf p (q ++ [c]) = Except.ok fs' := hexec
              have h1 := removeFileF_ok_inv fs rf hanc hqf hmid
              refine link_case_conclude fs rf F p rep bk q c
                (fun k => decide (k ≠ q ++ [c])) fs₁ fs' ?_ ?_ hanc hqf hexec'
              · rw [h1]; rfl
              · intro k hk
                simp only [decide_eq_false_iff_not, not_not] at hk
                rw [hk]
      | noop p d ch =>
        have hs₀ := hs
        have hexec' : seqExec (fun s c => Plan.execute rf fe s c) ch fs = Except.ok fs' := hexec
        simp only [shapeLiteB, Bool.and_eq_true, List.all_eq_true, decide_eq_true_eq] at hs
        obtain ⟨⟨hanc, hch⟩, hpw⟩ := hs
        obtain ⟨hu, hfil, hpost⟩ := exec_children_effect rf fe F (ih F) ch fs fs'
          (fun c hc => by
            have h1 := hch c hc
            simp only [Bool.and_eq_true, decide_eq_true_eq] at h1
            exact h1.2) hpw hexec'
        have hUnt : ∀ k : Path, k.length ≤ d.length →
            (ch.any (fun c => TouchB F c k)) = false := by
          intro k hk
          have h2 := noop_not_touch_shallow fs rf F p d ch hs₀ k hk
          simpa [TouchB] using h2
        have hkey : ∀ k : Path, (ch.any (fun c => TouchB F c k)) = false →
            lookupRaw fs' k = lookupRaw fs k := by
          intro k hk
          exact lookupRaw_of_filter_eq (fun k => !(ch.any (fun c => TouchB F c k)))
            hfil k (by simp [hk])
        refine ⟨hu, hfil, ?_⟩
        simp only [postRelB, Bool.and_eq_true, beq_iff_eq, List.all_eq_true]
        refine ⟨⟨hkey d (hUnt d le_rfl), ?_⟩, hpost⟩
        refine ancRawB_congr (fun r hr hrne hrnp => ?_) hanc
        exact hkey r (hUnt r hr.length_le)

/-- Rebuilding over a raw regular file whose destination holds the
matching absolute symlink gives the childless `Noop`. -/
theorem rebuild_file_node (rf : Nat) (b : Bool) (fs' : FS) (p : Path) {q : Path} {c : String}
    (i : Nat) (hlp : lookupRaw fs' p = some (Entry.file i))
    (hancp : ancRawB fs' p = true) (hpne : p ≠ []) (hplen : p.length ≤ rf)
    (hld : lookupRaw fs' (q ++ [c]) = some (Entry.symlink ⟨true, p⟩))
    (hancd : ancRawB fs' (q ++ [c]) = true) (hqf : q.length ≤ rf) (F : Nat) :
    Plan.new fs' rf b (F + 1) p (q ++ [c]) = Except.ok (Plan.noop p (q ++ [c]) []) := by
  have hstat : statE fs' rf p = some (Entry.file i) :=
    statE_raw_file fs' rf p hpne hancp i hlp hplen
  have hpe : pathExists fs' rf p = true := by simp [pathExists, hstat]
  have hid : isDir fs' rf p = false := by simp [isDir, hstat]
  have hres : resolve fs' rf p = some p := resolve_raw fs' rf p hancp (Or.inr ⟨i, hlp⟩) hplen
  have hrl : read_link fs' rf (q ++ [c]) = some ⟨true, p⟩ := by
    simp [read_link, lstatE_raw fs' rf hancd hqf, hld]
  have hcd : canDest fs' rf (q ++ [c]) = some p := by
    simp [canDest, hrl, hres]
  rw [new_file hpe hid, hres]
  simp [hcd]

/-- Rebuilding after a successful execution of a structurally sound plan
yields a plan that is entirely empty: the amended idempotence property.
Fuel induction; `hpt`/`hcn` carry agreement of the two states over the
source zone, `postRelB` carries the executed facts over the
destinations. -/
theorem rebuild_ok (rf : Nat) (b : Bool) (fs fs' : FS) (hu : fs'.unreadable = fs.unreadable) :
    ∀ (F : Nat) (P : Plan),
      nodeOkB fs rf F P = true →
      postRelB fs fs' F P = true →
      (∀ k, (k <+: P.pathOf ∨ P.pathOf <+: k) → lookupRaw fs' k = lookupRaw fs k) →
      (∀ px, P.pathOf <+: px → childNames fs' px = childNames fs px) →
      ∃ P', Plan.new fs' rf b F P.pathOf P.destOf = Except.ok P' ∧ P'.is_empty = true := by
  intro F
  induction F with
  | zero => intro P h; simp [nodeOkB] at h
  | succ F ih =>
    intro P hnode hpost hpt hcn
    cases P with
    | link p d rep bk =>
      simp only [nodeOkB, Bool.and_eq_true, Bool.not_eq_true',
        decide_eq_false_iff_not, decide_eq_true_eq] at hnode
      obtain ⟨⟨⟨⟨⟨hm, hancp⟩, hpne⟩, hplen⟩, hdne⟩, hdlen⟩ := hnode
      obtain ⟨i, hlp⟩ : ∃ i, lookupRaw fs p = some (Entry.file i) := by
        cases hlpc : lookupRaw fs p with
        | none => rw [hlpc] at hm; simp at hm
        | some e =>
          cases e with
          | file i => exact ⟨i, rfl⟩
          | dir => rw [hlpc] at hm; simp at hm
          | symlink t => rw [hlpc] at hm; simp at hm
      simp only [postRelB, Bool.and_eq_true, beq_iff_eq] at hpost
      obtain ⟨hld', hancd'⟩ := hpost
      obtain ⟨q, c, rfl⟩ : ∃ q c, d = q ++ [c] := by
        rcases concat_cases d with h | ⟨q, c, h⟩
        · exact absurd h hdne
        · exact ⟨q, c, h⟩
      have hqf : q.length ≤ rf := by
        simp [List.length_append] at hdlen
        omega
      have hlp' : lookupRaw fs' p = some (Entry.file i) :=
        (hpt p (Or.inl List.prefix_rfl)).trans hlp
      have hancp' : ancRawB fs' p = true :=
        ancRawB_congr (fun r hr _ _ => hpt r (Or.inl hr)) hancp
      exact ⟨Plan.noop p (q ++ [c]) [],
        rebuild_file_node rf b fs' p i hlp' hancp' hpne hplen hld' hancd' hqf F,
        by simp [Plan.is_empty]⟩
    | noop p d ch =>
      have hnode' := hnode
      simp only [nodeOkB] at hnode'
      simp only [postRelB, Bool.and_eq_true, beq_iff_eq, List.all_eq_true] at hpost
      obtain ⟨⟨hldeq, hancd'⟩, hpall⟩ := hpost
      cases hlp : lookupRaw fs p with
      | none => rw [hlp] at hnode'; simp at hnode'
      | some e =>
        rw [hlp] at hnode'
        cases e with
        | symlink t => simp at hnode'
        | file i =>
          simp only [Bool.and_eq_true, beq_iff_eq, Bool.not_eq_true',
            decide_eq_false_iff_not, decide_eq_true_eq, List.isEmpty_iff] at hnode'
          obtain ⟨⟨⟨⟨⟨⟨hche, hsym⟩, hancp⟩, hpne⟩, hplen⟩, hdne⟩, hdlen⟩ := hnode'
          obtain ⟨q, c, rfl⟩ : ∃ q c, d = q ++ [c] := by
            rcases concat_cases d with h | ⟨q, c, h⟩
            · exact absurd h hdne
            · exact ⟨q, c, h⟩
          have hqf : q.length ≤ rf := by
            simp [List.length_append] at hdlen
            omega
          have hlp' : lookupRaw fs' p = some (Entry.file i) :=
            (hpt p (Or.inl List.prefix_rfl)).trans hlp
          have hancp' : ancRawB fs' p = true :=
            ancRawB_congr (fun r hr _ _ => hpt r (Or.inl hr)) hancp
          have hld' : lookupRaw fs' (q ++ [c]) = some (Entry.symlink ⟨true, p⟩) :=
            hldeq.trans hsym
          exact ⟨Plan.noop p (q ++ [c]) [],
            rebuild_file_node rf b fs' p i hlp' hancp' hpne hplen hld' hancd' hqf F,
            by simp [Plan.is_empty]⟩
        | dir =>
          simp only [Bool.and_eq_true, beq_iff_eq, Bool.not_eq_true',
            decide_eq_false_iff_not, decide_eq_true_eq, List.all_eq_true] at hnode'
          obtain ⟨⟨⟨⟨⟨⟨⟨hdd, hancp⟩, hpnun⟩, hplen⟩, hdlen⟩, hmp⟩, hmd⟩, hcall⟩ := hnode'
          have hlp' : lookupRaw fs' p = some Entry.dir :=
            (hpt p (Or.inl List.prefix_rfl)).trans hlp
          have hancp' : ancRawB fs' p = true :=
            ancRawB_congr (fun r hr _ _ => hpt r (Or.inl hr)) hancp
          have hstat : statE fs' rf p = some Entry.dir :=
            statE_raw_dir fs' rf p hancp' hlp' hplen
          have hpe : pathExists fs' rf p = true := by simp [pathExists, hstat]
          have hid : isDir fs' rf p = true := by simp [isDir, hstat]
          have hres : resolve fs' rf p = some p :=
            resolve_raw fs' rf p hancp' (Or.inl hlp') hplen
          have hnames : childNames fs' p = childNames fs p := hcn p List.prefix_rfl
          have hrd : read_dir fs' rf p = some (childNames fs p) := by
            simp [read_dir, hres, hu, hpnun, hnames]
          have hdird : isDir fs' rf d = true := by
            have hddir' : lookupRaw fs' d = some Entry.dir := hldeq.trans hdd
            simp [isDir, statE_raw_dir fs' rf d hancd' hddir' hdlen]
          have hkids : ∀ (ns : List String) (cl : List Plan),
              cl.map Plan.pathOf = ns.map (fun n => p ++ [n]) →
              cl.map Plan.destOf = ns.map (fun n => d ++ [n]) →
              (∀ c ∈ cl, nodeOkB fs rf F c = true) →
              (∀ c ∈ cl, postRelB fs fs' F c = true) →
              ∃ cs', seqBuild (fun n => Plan.new fs' rf b F (p ++ [n]) (d ++ [n])) ns
                  = Except.ok cs' ∧ ∀ c' ∈ cs', c'.is_empty = true := by
            intro ns
            induction ns with
            | nil =>
              intro cl _ _ _ _
              exact ⟨[], seqBuild_nil _, fun c' hc' => absurd hc' (List.not_mem_nil c')⟩
            | cons n ns ihn =>
              intro cl h1 h2 h3 h4
              cases cl with
              | nil => simp at h1
              | cons c0 cl =>
                simp only [List.map_cons, List.cons.injEq] at h1 h2
                have hpt0 : ∀ k, (k <+: c0.pathOf ∨ c0.pathOf <+: k) →
                    lookupRaw fs' k = lookupRaw fs k := by
                  intro k hk
                  rw [h1.1] at hk
                  apply hpt
                  rcases hk with hk | hk
                  · rcases prefix_comparable hk (List.prefix_append p [n]) with h' | h'
                    · exact Or.inl h'
                    · exact Or.inr h'
                  · exact Or.inr ((List.prefix_append p [n]).trans hk)
                have hcn0 : ∀ px, c0.pathOf <+: px →
                    childNames fs' px = childNames fs px := by
                  intro px hpx
                  rw [h1.1] at hpx
                  exact hcn px ((List.prefix_append p [n]).trans hpx)
                obtain ⟨P0', hP0, hP0e⟩ := ih c0
                  (h3 c0 (List.mem_cons_self c0 cl)) (h4 c0 (List.mem_cons_self c0 cl))
                  hpt0 hcn0
                rw [h1.1, h2.1] at hP0
                obtain ⟨cs', hcs, hcse⟩ := ihn cl h1.2 h2.2
                  (fun c hc => h3 c (List.mem_cons_of_mem c0 hc))
                  (fun c hc => h4 c (List.mem_cons_of_mem c0 hc))
                refine ⟨P0' :: cs', ?_, ?_⟩
                · rw [seqBuild_cons, hP0, hcs]
                  rfl
                · intro c' hc'
                  rcases List.mem_cons.mp hc' with rfl | hc''
                  · exact hP0e
                  · exact hcse c' hc''
          obtain ⟨cs', hsb, hcse⟩ := hkids (childNames fs p) ch hmp hmd hcall hpall
          simp only [Plan.pathOf, Plan.destOf]
          refine ⟨Plan.noop p d cs', ?_, ?_⟩
          · rw [new_dir_ok hpe hid hrd hsb, if_pos hdird]
          · rw [is_empty_noop]
            exact List.all_eq_true.mpr hcse

/-- C1 (amended): build-then-execute is idempotent only under structural
side conditions that exclude the directory-as-Link situation of
`C1_counterexample`.  For prefix-incomparable roots, when the built plan
satisfies `shapeLiteB` (raw destination ancestor chains, no backup
renames, children destinations strictly below their parent and pairwise
incomparable) and `nodeOkB` (every node's source is a raw file or a raw
readable directory whose children are exactly the directory listing;
`Link` and childless-`Noop` only on files; `Noop` destinations already
correct), a successful execution leads to a rebuild that succeeds and is
entirely empty.  In particular this covers every plan in which no source
directory was turned into a `Link`. -/
theorem C1_rebuild_empty (fs fs' : FS) (rf fe F : Nat) (b : Bool) (S D : Path) (P : Plan)
    (hSD : ¬ S <+: D) (hDS : ¬ D <+: S)
    (hbuild : Plan.new fs rf b F S D = Except.ok P)
    (hlite : shapeLiteB fs rf F P = true)
    (hnode : nodeOkB fs rf F P = true)
    (hexec : Plan.execute rf fe fs P = Except.ok fs') :
    ∃ P', Plan.new fs' rf b F S D = Except.ok P' ∧ P'.is_empty = true := by
  obtain ⟨hroot1, hroot2⟩ := new_ok_root hbuild
  obtain ⟨hu, hfil, hpost⟩ := exec_effect rf fe F P fs fs' hlite hexec
  have hkey : ∀ k, TouchB F P k = false → lookupRaw fs' k = lookupRaw fs k := by
    intro k hk
    exact lookupRaw_of_filter_eq (fun k => !(TouchB F P k)) hfil k (by simp [hk])
  have hDk : ∀ k, TouchB F P k = true → D <+: k := by
    intro k hk
    have h := touch_le fs rf F P k hlite hk
    rwa [hroot2] at h
  have hpt : ∀ k, (k <+: S ∨ S <+: k) → lookupRaw fs' k = lookupRaw fs k := by
    intro k hz
    refine hkey k ?_
    cases ht : TouchB F P k with
    | false => rfl
    | true =>
      exfalso
      have hDle := hDk k ht
      rcases hz with hk | hk
      · exact hDS (hDle.trans hk)
      · rcases prefix_comparable hDle hk with h | h
        · exact hDS h
        · exact hSD h
  have hcn : ∀ px, S <+: px → childNames fs' px = childNames fs px := by
    intro px hpx
    refine childNames_of_filter_eq (fun k => !(TouchB F P k)) hfil px ?_
    intro n
    cases ht : TouchB F P (px ++ [n]) with
    | false => simp [ht]
    | true =>
      exfalso
      have hDle := hDk _ ht
      have hSpxn : S <+: px ++ [n] := hpx.trans (List.prefix_append px [n])
      rcases prefix_comparable hDle hSpxn with h | h
      · exact hDS h
      · exact hSD h
  obtain ⟨P', hP', hPe⟩ := rebuild_ok rf b fs fs' hu F P hnode hpost
    (fun k hk => hpt k (by rwa [hroot1] at hk))
    (fun px hpx => hcn px (by rwa [hroot1] at hpx))
  rw [hroot1, hroot2] at hP'
  exact ⟨P', hP', hPe⟩

/-- A fresh source with one file and an empty destination directory. -/
def fsW : FS := ⟨[(["s"], Entry.dir), (["s", "f"], Entry.file 0), (["d"], Entry.dir)], []⟩

/-- The state after executing the plan built from `fsW`. -/
def fsW' : FS :=
  ⟨[(["s"], Entry.dir), (["s", "f"], Entry.file 0), (["d"], Entry.dir),
    (["d", "f"], Entry.symlink ⟨true, ["s", "f"]⟩)], []⟩

/-- Witness for `C1_rebuild_empty` on a concrete run: one source file
linked into an existing destination directory. -/
theorem C1_witness :
    (¬ (["s"] : Path) <+: ["d"]) ∧
    (∃ P', Plan.new fsW' 10 false 3 ["s"] ["d"] = Except.ok P' ∧ P'.is_empty = true) :=
  ⟨by decide,
    C1_rebuild_empty fsW fsW' 10 3 3 false ["s"] ["d"]
      (Plan.noop ["s"] ["d"] [Plan.link ["s", "f"] ["d", "f"] false false])
      (by decide) (by decide) rfl rfl rfl rfl⟩

end Homer
